import Mathlib

/-!
Verification of gortc/ftp: the authenticator, the filesystem driver (`fd`)
and the virtual driver (`vd`).

A shallow embedding of `auth.go`, `fd/driver.go` and `vd/vd.go`.

Conventions of the embedding

* A Go `string` used as a path is a `List Char`; `'/'` and `'.'` are single
  bytes in UTF-8 and never occur inside a multi-byte sequence, so the byte
  loops of `path/filepath` behave the same on characters.
* A Go `[]byte` / byte stream is a `List Byte` with `Byte = Fin 256`.
* `int64` offsets are `Int`; no claim here depends on overflow.
* A Go `error` is `Option Error` (`none` is `nil`); a `(T, error)` result is
  a pair or an `Except Error T`.
* The host operating system is a finite table from cleaned host paths to
  nodes (`FS`); the `os` and `path/filepath` functions the driver calls are
  embedded from the Go standard library (Unix build). The host is Linux:
  a path text is refused when it is empty, holds a NUL byte or exceeds
  `PATH_MAX` / `NAME_MAX`, and no file offset or size exceeds `maxFileSize`.
-/

namespace Ftp

/-! ## Common types -/

/-- One byte. -/
abbrev Byte := Fin 256

/-- Go errors that the embedded code can produce or pass through. -/
inductive Error where
  | ENOENT
  | ENOTDIR
  | EEXIST
  | EISDIR
  | ENOTEMPTY
  | EINVAL
  | ENAMETOOLONG
  | EFBIG
  | SkipDir
  | New (msg : String)
  deriving DecidableEq, Repr

/-! ## auth.go -/

/-- `subtle.ConstantTimeByteEq(x, y uint8) int`:
`int((uint32(x^y) - 1) >> 31)`, with the `uint32` subtraction wrapping. -/
def ConstantTimeByteEq (x y : Nat) : Nat :=
  (((x ^^^ y) % 2 ^ 32 + 2 ^ 32 - 1) % 2 ^ 32) >>> 31

/-- The loop of `subtle.ConstantTimeCompare`: `v |= x[i] ^ y[i]` on a `byte`
accumulator, for `i` over the common indices. -/
def ctAccumulate : List Byte → List Byte → Nat → Nat
  | x :: xs, y :: ys, v => ctAccumulate xs ys ((v ||| (x.val ^^^ y.val)) % 256)
  | _, _, v => v

/-- `subtle.ConstantTimeCompare(x, y []byte) int`. -/
def ConstantTimeCompare (x y : List Byte) : Nat :=
  if x.length ≠ y.length then 0
  else ConstantTimeByteEq (ctAccumulate x y 0) 0

/-- `constantTimeEquals(a, b string) bool` of auth.go. -/
def constantTimeEquals (a b : List Byte) : Bool :=
  decide (a.length = b.length) && decide (ConstantTimeCompare a b = 1)

/-- `SimpleAuth` of auth.go. -/
structure SimpleAuth where
  Name : List Byte
  Password : List Byte

/-- `(*SimpleAuth).CheckPasswd(name, pass string) (bool, error)`. -/
def SimpleAuth.CheckPasswd (a : SimpleAuth) (name pass : List Byte) : Bool × Option Error :=
  (constantTimeEquals name a.Name && constantTimeEquals pass a.Password, none)

/-! ## vd/vd.go -/

namespace vd

/-- `const fileName = "output"`. -/
def fileName : List Char := "output".toList

/-- The `Proxy` interface of vd.go. An implementation has its own state `σ`;
`ρ` is the type of the `io.Reader` handed through. -/
structure Proxy (σ ρ : Type) where
  ProxyFrom : ρ → Int → σ → (Int × Option Error) × σ
  Close : σ → Option Error × σ

/-- What is observable of the proxy from outside: the state of the
implementation and the record of every `ProxyFrom` invocation, in order. -/
structure World (σ ρ : Type) where
  state : σ
  calls : List (ρ × Int)

/-- A method call `d.proxy.ProxyFrom(r, offset)`: runs the implementation
and records the invocation. -/
def Proxy.invoke {σ ρ : Type} (p : Proxy σ ρ) (r : ρ) (offset : Int) (w : World σ ρ) :
    (Int × Option Error) × World σ ρ :=
  let res := p.ProxyFrom r offset w.state
  (res.1, { state := res.2, calls := w.calls ++ [(r, offset)] })

/-- `type Driver struct { proxy Proxy; size int64 }`. -/
structure Driver (σ ρ : Type) where
  proxy : Proxy σ ρ
  size : Int

/-- The body of `func (d Driver) PutFile(name, offset, r, append)`, run on
the method's own copy `d` of the receiver. Returns the result pair, the
final value of the local copy, and the world. -/
def Driver.PutFileBody {σ ρ : Type} (d : Driver σ ρ) (name : List Char) (offset : Int)
    (r : ρ) (_append : Bool) (w : World σ ρ) :
    (Int × Option Error) × Driver σ ρ × World σ ρ :=
  if name ≠ '/' :: fileName then
    ((0, some (Error.New "unexpected file name")), d, w)
  else
    let res := d.proxy.invoke r offset w
    let n := res.1.1
    let err := res.1.2
    let d1 : Driver σ ρ := { d with size := d.size + n }
    ((n, err), d1, res.2)

/-- A call of `PutFile` as the caller sees it: the receiver is passed by
value, so the local copy is dropped at return. -/
def Driver.PutFile {σ ρ : Type} (d : Driver σ ρ) (name : List Char) (offset : Int)
    (r : ρ) ( append : Bool) (w : World σ ρ) : (Int × Option Error) × World σ ρ :=
  let out := d.PutFileBody name offset r append w
  (out.1, out.2.2)

/-- `type fileInfo struct { name string; size int64 }`. -/
structure fileInfo where
  name : List Char
  size : Int
  deriving DecidableEq, Repr

/-- `func (f fileInfo) Name() string`. -/
def fileInfo.Name (f : fileInfo) : List Char := f.name

/-- `func (f fileInfo) Size() int64`. -/
def fileInfo.Size (f : fileInfo) : Int := f.size

/-- `func (f fileInfo) Mode() os.FileMode`. -/
def fileInfo.Mode (_f : fileInfo) : Nat := 0o666

/-- `func (f fileInfo) IsDir() bool`. -/
def fileInfo.IsDir (_f : fileInfo) : Bool := false

/-- `func (f fileInfo) Owner() string`. -/
def fileInfo.Owner (_f : fileInfo) : String := "owner"

/-- `func (f fileInfo) Group() string`. -/
def fileInfo.Group (_f : fileInfo) : String := "group"

/-- `func (d Driver) Stat(name string) (ftp.FileInfo, error)`. -/
def Driver.Stat {σ ρ : Type} (d : Driver σ ρ) (_name : List Char) : fileInfo × Option Error :=
  let f : fileInfo := { name := fileName, size := d.size }
  (f, none)

/-- `type Factory struct { Proxy Proxy }`. -/
structure Factory (σ ρ : Type) where
  Proxy : Proxy σ ρ

/-- `func (f *Factory) NewDriver() (ftp.Driver, error)`: returns
`&Driver{proxy: f.Proxy}`. The first component is the value of the fresh
`Driver` cell the returned pointer refers to; `size` has its zero value. -/
def Factory.NewDriver {σ ρ : Type} (f : Factory σ ρ) : Driver σ ρ × Option Error :=
  ({ proxy := f.Proxy, size := 0 }, none)

/-- The arguments of one `PutFile` call. -/
structure PutFileArgs (ρ : Type) where
  name : List Char
  offset : Int
  r : ρ
  appendFlag : Bool

/-- A call `drv.PutFile(...)` on the `ftp.Driver` that `NewDriver` returned,
that is through the pointer to the cell holding `cell`. `PutFile` has a
value receiver, so the cell is copied into the receiver `d`, the body runs
on the copy, and nothing is written back. Returns the result pair, the
value of the cell after the call, and the world. -/
def callPutFile {σ ρ : Type} (cell : Driver σ ρ) (a : PutFileArgs ρ) (w : World σ ρ) :
    (Int × Option Error) × Driver σ ρ × World σ ρ :=
  let d := cell
  let out := d.PutFileBody a.name a.offset a.r a.appendFlag w
  (out.1, cell, out.2.2)

/-- A sequence of `PutFile` calls on the same driver, in order; returns the
value of the cell and the world after the last call. -/
def callPutFiles {σ ρ : Type} (cell : Driver σ ρ) :
    List (PutFileArgs ρ) → World σ ρ → Driver σ ρ × World σ ρ
  | [], w => (cell, w)
  | a :: rest, w =>
    let out := callPutFile cell a w
    callPutFiles out.2.1 rest out.2.2

end vd

/-! ## path/filepath and strings (Go standard library, Unix build) -/

/-- `strings.Split(s, "/")`. -/
def Split (s : List Char) : List (List Char) :=
  s.splitOn '/'

/-- The inner loop of the `..` case of `filepath.Clean`:
`for out.w > dotdot && !os.IsPathSeparator(out.index(out.w)) { out.w-- }`.
The buffer `out[0:w]` is kept reversed (last byte first); `last` is the byte
at index `w`, that is the byte dropped by the preceding `out.w--`. -/
def cleanBacktrack (dotdot : Nat) : List Char → Char → List Char
  | [], _ => []
  | c :: rest, last =>
    if (c :: rest).length > dotdot ∧ last ≠ '/' then cleanBacktrack dotdot rest c
    else c :: rest

/-- One iteration of the loop `for r < n { switch ... }` of `filepath.Clean`
on `path[r:] = c :: t`, with the buffer `out[0:w]` reversed and `dotdot`;
returns the new `path[r:]`, buffer and `dotdot`. -/
def cleanStep (rooted : Bool) (c : Char) (t : List Char) (out : List Char) (dotdot : Nat) :
    List Char × List Char × Nat :=
  if c = '/' then
    -- empty path element
    (t, out, dotdot)
  else if c = '.' ∧ (t = [] ∨ t.head? = some '/') then
    -- . element
    (t, out, dotdot)
  else if c = '.' ∧ t.head? = some '.' ∧ (t.tail = [] ∨ t.tail.head? = some '/') then
    -- .. element: remove to last separator
    if out.length > dotdot then
      -- can backtrack
      match out with
      | [] => (t.tail, out, dotdot)
      | last :: rest => (t.tail, cleanBacktrack dotdot rest last, dotdot)
    else if rooted = false then
      -- cannot backtrack, but not rooted, so append .. element.
      let out1 := if out.length > 0 then '/' :: out else out
      let out2 := '.' :: '.' :: out1
      (t.tail, out2, out2.length)
    else
      (t.tail, out, dotdot)
  else
    -- real path element: add slash if needed, copy element
    let out1 :=
      if (rooted = true ∧ out.length ≠ 1) ∨ (rooted = false ∧ out.length ≠ 0) then '/' :: out
      else out
    let elem := (c :: t).takeWhile (fun x => x ≠ '/')
    ((c :: t).dropWhile (fun x => x ≠ '/'), elem.reverse ++ out1, dotdot)

/-- The loop `for r < n { ... }` of `filepath.Clean`. The second argument is
the number of iterations still allowed (each iteration advances `r`, so `n`
of them are enough); returns the buffer (reversed) and `dotdot`. -/
def cleanLoop (rooted : Bool) : Nat → List Char → List Char → Nat → List Char × Nat
  | 0, _, out, dotdot => (out, dotdot)
  | _ + 1, [], out, dotdot => (out, dotdot)
  | fuel + 1, c :: t, out, dotdot =>
    let s := cleanStep rooted c t out dotdot
    cleanLoop rooted fuel s.1 s.2.1 s.2.2

/-- `filepath.Clean(path)`. -/
def Clean (path : List Char) : List Char :=
  match path with
  | [] => ['.']
  | c :: t =>
    let rooted : Bool := decide (c = '/')
    let out :=
      if rooted then (cleanLoop true path.length t ['/'] 1).1
      else (cleanLoop false path.length path [] 0).1
    -- Turn empty string into "."
    if out.length = 0 then ['.'] else out.reverse

/-- The loop of `filepath.Clean` run over the whole of `path[r:]`. -/
def cleanRun (rooted : Bool) (path out : List Char) (dotdot : Nat) : List Char × Nat :=
  cleanLoop rooted path.length path out dotdot

/-- An ordinary path segment: not empty, not `.` and not `..`. -/
def ordinary (s : List Char) : Bool :=
  decide (s ≠ [] ∧ s ≠ ['.'] ∧ s ≠ ['.', '.'])

/-- The buffer of `filepath.Clean` (reversed) after the default case of the
loop has copied the element `name`: a slash if needed, then the element. -/
def pushName (rooted : Bool) (out name : List Char) : List Char :=
  name.reverse ++
    (if (rooted = true ∧ out.length ≠ 1) ∨ (rooted = false ∧ out.length ≠ 0) then '/' :: out
     else out)

/-- The buffer after copying several elements in turn. -/
def pushNames (rooted : Bool) (out : List Char) (names : List (List Char)) : List Char :=
  names.foldl (pushName rooted) out

/-- A path text whose first segment, if there is one, is neither empty
(the text does not begin with a separator) nor `.`. -/
def firstSegmentOK (f : List Char) : Prop :=
  f = [] ∨ (f.takeWhile (fun x => x ≠ '/') ≠ [] ∧ f.takeWhile (fun x => x ≠ '/') ≠ ['.'])

/-- `strings.Join(elems, "/")`. -/
def stringsJoin (elems : List (List Char)) : List Char :=
  ['/'].intercalate elems

/-- The host path of the entry reached from directory `R` (in cleaned
spelling) by descending through `names` in turn: `R` itself for no names;
otherwise the names joined by `/` and put behind `R/`, where the root
directory `/` already ends in the separator and the working directory `.`
is left out. -/
def under (R : List Char) (names : List (List Char)) : List Char :=
  if names = [] then R
  else if R = ['/'] then '/' :: stringsJoin names
  else if R = ['.'] then stringsJoin names
  else R ++ '/' :: stringsJoin names

/-- `filepath.Join(elem...)`: the elements from the first non-empty one on,
joined by `/` and cleaned; the empty string if all are empty. -/
def Join (elem : List (List Char)) : List Char :=
  match elem.dropWhile (fun e => e = []) with
  | [] => []
  | es => Clean (stringsJoin es)

/-- The scan of `filepath.Rel` to the end of the current element:
`for i < len(s) && s[i] != Separator { i++ }`. -/
def relScan (s : List Char) (i : Nat) : Nat :=
  i + ((s.drop i).takeWhile (fun x => x ≠ '/')).length

/-- `s[a:b]`. -/
def slice (s : List Char) (a b : Nat) : List Char :=
  (s.take b).drop a

/-- The loop of `filepath.Rel` that positions `base[b0:bi]` and `targ[t0:ti]`
at the first differing elements; returns `(b0, bi, t0, ti)`. -/
def relLoop (base targ : List Char) : Nat → Nat → Nat → Nat → Nat → Nat × Nat × Nat × Nat
  | 0, b0, bi, t0, ti => (b0, bi, t0, ti)
  | fuel + 1, b0, bi, t0, ti =>
    if bi < base.length ∧ ti < targ.length then
      let bi1 := relScan base bi
      let ti1 := relScan targ ti
      if slice targ t0 ti1 ≠ slice base b0 bi1 then (b0, bi1, t0, ti1)
      else
        let bi2 := if bi1 < base.length then bi1 + 1 else bi1
        let ti2 := if ti1 < targ.length then ti1 + 1 else ti1
        relLoop base targ fuel bi2 bi2 ti2 ti2
    else (b0, bi, t0, ti)

/-- `filepath.Rel(basepath, targpath)`. -/
def Rel (basepath targpath : List Char) : Except Error (List Char) :=
  let base0 := Clean basepath
  let targ := Clean targpath
  if targ = base0 then .ok ['.']
  else
    let base := if base0 = ['.'] then [] else base0
    let baseSlashed : Bool := decide (base.head? = some '/')
    let targSlashed : Bool := decide (targ.head? = some '/')
    if baseSlashed ≠ targSlashed then .error (Error.New "Rel: can't make relative")
    else
      let bl := base.length
      let tl := targ.length
      let pos := relLoop base targ (bl + 1) 0 0 0 0
      let b0 := pos.1
      let bi := pos.2.1
      let t0 := pos.2.2.1
      if slice base b0 bi = ['.', '.'] then .error (Error.New "Rel: can't make relative")
      else if b0 ≠ bl then
        -- Base elements left. Must go up before going down.
        let seps := (slice base b0 bl).count '/'
        let ups := ['.', '.'] ++ (List.replicate seps ['/', '.', '.']).flatten
        .ok (if t0 ≠ tl then ups ++ '/' :: targ.drop t0 else ups)
      else .ok (targ.drop t0)

/-! ## The host file system and package os -/

/-- What a host path holds: a regular file with its bytes, or a directory.
Symbolic links and permission bits are not modelled. -/
inductive Node where
  | file (data : List Byte)
  | dir
  deriving DecidableEq, Repr, Inhabited

/-- The host file system: a table from host paths, in the cleaned spelling
that `filepath.Join` produces, to nodes. -/
abbrev FS := List (List Char × Node)

/-- The node at a host path. -/
def FS.lookup (fs : FS) (p : List Char) : Option Node :=
  (fs.find? (fun e => e.1 = p)).map (fun e => e.2)

/-- The table without the entry of `p`. -/
def FS.erase (fs : FS) (p : List Char) : FS :=
  fs.filter (fun e => e.1 ≠ p)

/-- The table with `p` holding `n`. -/
def FS.set (fs : FS) (p : List Char) (n : Node) : FS :=
  fs.erase p ++ [(p, n)]

/-- The prefix `path[:j]` computed by `os.MkdirAll`: trailing separators
skipped (`i`), then the last element scanned backwards (`j`). -/
def dirPrefix (path : List Char) : List Char :=
  ((path.reverse.dropWhile (fun x => x = '/')).dropWhile (fun x => x ≠ '/')).reverse

/-- The directory that holds the entry named by a host path: `path[:j-1]`
with `j` as in `dirPrefix`; `/` for an entry of the root directory and for
the root itself; `.` (the working directory) for a bare name. -/
def parentOf (path : List Char) : List Char :=
  if path ≠ [] ∧ path.all (fun x => x = '/') then ['/']
  else if (dirPrefix path).length > 1 then (dirPrefix path).dropLast
  else if (dirPrefix path).length = 1 then ['/']
  else ['.']

/-- `basename(name)` of package os: trailing slashes removed, then the
leading directory name. -/
def basename (name : List Char) : List Char :=
  match name.reverse with
  | [] => []
  | c :: rest =>
    -- the first loop stops at i = 0: the first byte is never removed
    let kept := (c :: rest).dropWhile (fun x => x = '/')
    let trimmed := if kept = [] then ['/'] else kept
    -- the second loop starts below the last remaining byte
    match trimmed with
    | [] => []
    | l :: before => (l :: before.takeWhile (fun x => x ≠ '/')).reverse

/-- `os.FileInfo` as far as the driver reads it (`Name`, `Size`, `IsDir`).
The size of a directory is system dependent and fixed to 0 here. -/
structure FileStat where
  name : List Char
  size : Int
  isDir : Bool
  deriving DecidableEq, Repr

/-- Whether the nearest existing ancestor of `p` is a regular file. -/
def underFile (fs : FS) : Nat → List Char → Bool
  | 0, _ => false
  | fuel + 1, p =>
    let q := parentOf p
    if q = p then false
    else
      match fs.lookup q with
      | some (Node.file _) => true
      | some Node.dir => false
      | none => underFile fs fuel q

/-- The error of a system call on a path at which nothing exists. -/
def missingErr (fs : FS) (p : List Char) : Error :=
  if underFile fs p.length p then Error.ENOTDIR else Error.ENOENT

/-- `NAME_MAX` of the host (Linux): the longest path component, in bytes. -/
def NAME_MAX : Nat := 255

/-- `PATH_MAX` of the host (Linux): the longest path with its terminating
NUL, in bytes. -/
def PATH_MAX : Nat := 4096

/-- The largest file size, and so the largest file offset, that the host
file system accepts (`s_maxbytes`); the value is that of ext4 with 4 KiB
blocks. It is below the `int64` limit. The statements below use it only as
a bound. -/
def maxFileSize : Nat := 2 ^ 44 - 4096

/-- The length of a path text in bytes (UTF-8). -/
def byteLen (s : List Char) : Nat :=
  (s.map (fun c => c.utf8Size)).sum

/-- The error with which every system call that takes a path refuses a text
that cannot name anything: the empty path (`ENOENT`), a path with a NUL
byte (`EINVAL`, raised by package syscall before the call), a path of
`PATH_MAX` bytes or more or with a component of more than `NAME_MAX` bytes
(`ENAMETOOLONG`). `none` when the host accepts the text as a name. -/
def nameError (name : List Char) : Option Error :=
  if name = [] then some Error.ENOENT
  else if Char.ofNat 0 ∈ name then some Error.EINVAL
  else if PATH_MAX ≤ byteLen name ∨ (Split name).any (fun c => decide (NAME_MAX < byteLen c)) then
    some Error.ENAMETOOLONG
  else none

/-- `os.Lstat(name)` (and `os.Stat`, there being no symbolic links). -/
def Lstat (fs : FS) (name : List Char) : Except Error FileStat :=
  match nameError name with
  | some e => .error e
  | none =>
    match fs.lookup name with
    | some (Node.file data) => .ok { name := basename name, size := data.length, isDir := false }
    | some Node.dir => .ok { name := basename name, size := 0, isDir := true }
    | none => .error (missingErr fs name)

/-- `os.IsNotExist(err)`. -/
def IsNotExist (e : Error) : Bool :=
  decide (e = Error.ENOENT)

/-- Whether some entry lies directly in directory `p`. -/
def FS.hasChild (fs : FS) (p : List Char) : Bool :=
  fs.any (fun e => decide (e.1 ≠ p ∧ parentOf e.1 = p))

/-- `os.Remove(name)`: unlink a file, or remove an empty directory. -/
def Remove (fs : FS) (name : List Char) : Except Error FS :=
  match nameError name with
  | some e => .error e
  | none =>
    match fs.lookup name with
    | none => .error (missingErr fs name)
    | some (Node.file _) => .ok (fs.erase name)
    | some Node.dir =>
      if fs.hasChild name then .error Error.ENOTEMPTY else .ok (fs.erase name)

/-- `os.Mkdir(name, perm)`: the parent must be an existing directory. -/
def Mkdir (fs : FS) (name : List Char) : Except Error FS :=
  match nameError name with
  | some e => .error e
  | none =>
    match fs.lookup name with
    | some _ => .error Error.EEXIST
    | none =>
      match fs.lookup (parentOf name) with
      | some Node.dir => .ok (fs.set name Node.dir)
      | some (Node.file _) => .error Error.ENOTDIR
      | none => .error (missingErr fs name)

/-- `os.MkdirAll(path, perm)`. The first argument bounds the recursion on
ever shorter prefixes. -/
def MkdirAll (fs : FS) : Nat → List Char → Except Error FS
  | 0, _ => .error Error.EINVAL
  | fuel + 1, path =>
    -- Fast path: if we can tell whether path is a directory or file, stop.
    match Lstat fs path with
    | .ok dir => if dir.isDir then .ok fs else .error Error.ENOTDIR
    | .error _ =>
      -- Slow path: make sure parent exists and then call Mkdir for path.
      let j := (dirPrefix path).length
      let made : Except Error FS :=
        if j > 1 then MkdirAll fs fuel (dirPrefix path).dropLast else .ok fs
      match made with
      | .error e => .error e
      | .ok fs1 =>
        match Mkdir fs1 path with
        | .ok fs2 => .ok fs2
        | .error e =>
          match Lstat fs1 path with
          | .ok dir1 => if dir1.isDir then .ok fs1 else .error e
          | .error _ => .error e

/-- An open `*os.File`: the path it was opened on, the file offset, and
whether it was opened with `O_APPEND`. -/
structure File where
  name : List Char
  pos : Nat
  appendMode : Bool
  deriving DecidableEq, Repr

/-- `os.Create(name)`: `OpenFile(name, O_RDWR|O_CREATE|O_TRUNC, 0666)`. -/
def Create (fs : FS) (name : List Char) : Except Error (File × FS) :=
  match nameError name with
  | some e => .error e
  | none =>
    match fs.lookup name with
    | some Node.dir => .error Error.EISDIR
    | some (Node.file _) =>
      .ok ({ name := name, pos := 0, appendMode := false }, fs.set name (Node.file []))
    | none =>
      match fs.lookup (parentOf name) with
      | some Node.dir =>
        .ok ({ name := name, pos := 0, appendMode := false }, fs.set name (Node.file []))
      | some (Node.file _) => .error Error.ENOTDIR
      | none => .error (missingErr fs name)

/-- `os.OpenFile(name, flags, perm)` for `flags` = `O_WRONLY`, with or
without `O_APPEND` (no `O_CREATE`). -/
def OpenFileWrite (fs : FS) (name : List Char) (oAppend : Bool) : Except Error File :=
  match nameError name with
  | some e => .error e
  | none =>
    match fs.lookup name with
    | some (Node.file _) => .ok { name := name, pos := 0, appendMode := oAppend }
    | some Node.dir => .error Error.EISDIR
    | none => .error (missingErr fs name)

/-- `os.Open(name)`: read-only; a directory can be opened too. -/
def Open (fs : FS) (name : List Char) : Except Error File :=
  match nameError name with
  | some e => .error e
  | none =>
    match fs.lookup name with
    | some _ => .ok { name := name, pos := 0, appendMode := false }
    | none => .error (missingErr fs name)

/-- `f.Stat()` on an open file. -/
def File.Stat (fs : FS) (f : File) : Except Error FileStat :=
  Lstat fs f.name

/-- `f.Seek(offset, io.SeekStart)`: the host refuses a negative offset and
an offset above its maximum file size. -/
def File.SeekStart (f : File) (offset : Int) : Except Error File :=
  if offset < 0 ∨ (maxFileSize : Int) < offset then .error Error.EINVAL
  else .ok { f with pos := offset.toNat }

/-- `f.Seek(0, io.SeekEnd)`. -/
def File.SeekEnd (fs : FS) (f : File) : Except Error File :=
  match fs.lookup f.name with
  | some (Node.file data) => .ok { f with pos := data.length }
  | some Node.dir => .ok { f with pos := 0 }
  | none => .error Error.ENOENT

/-- The bytes of a file after writing `data` at offset `pos`: a gap between
the old end and `pos` reads as zero bytes; writing nothing changes nothing. -/
def writeAt (content : List Byte) (pos : Nat) (data : List Byte) : List Byte :=
  if data = [] then content
  else
    content.take pos ++ List.replicate (pos - content.length) (0 : Byte) ++ data ++
      content.drop (pos + data.length)

/-- An `io.Reader`: the bytes it yields, then end of stream (`none`) or a
read error. -/
structure Reader where
  data : List Byte
  err : Option Error
  deriving DecidableEq, Repr

/-- `io.Copy(f, data)` into an open file: every byte read is written at the
file offset (at the end of the file under `O_APPEND`); returns the count
written and the reader's error. The host writes no byte beyond its maximum
file size: the write is cut short there and fails with `EFBIG`. -/
def copyTo (fs : FS) (f : File) (r : Reader) : (Int × Option Error) × FS :=
  match fs.lookup f.name with
  | some (Node.file content) =>
    let pos := if f.appendMode then content.length else f.pos
    let room := maxFileSize - pos
    if r.data.length ≤ room then
      ((r.data.length, r.err), fs.set f.name (Node.file (writeAt content pos r.data)))
    else
      ((room, some Error.EFBIG),
        fs.set f.name (Node.file (writeAt content pos (r.data.take room))))
  | _ => ((0, some Error.EINVAL), fs)

/-- Reading an open file to the end (what the caller of `GetFile` does with
the returned stream). -/
def File.readAll (fs : FS) (f : File) : Except Error (List Byte) :=
  match fs.lookup f.name with
  | some (Node.file content) => .ok (content.drop f.pos)
  | some Node.dir => .error Error.EISDIR
  | none => .error Error.ENOENT

/-- The names of the entries directly in directory `dirname`. -/
def FS.childNames (fs : FS) (dirname : List Char) : List (List Char) :=
  (fs.filter (fun e => decide (e.1 ≠ dirname ∧ parentOf e.1 = dirname))).map
    (fun e => basename e.1)

/-- `readDirNames(dirname)` of path/filepath: the entry names, sorted. -/
def readDirNames (fs : FS) (dirname : List Char) : Except Error (List (List Char)) :=
  match nameError dirname with
  | some e => .error e
  | none =>
    match fs.lookup dirname with
    | some Node.dir => .ok ((fs.childNames dirname).insertionSort (fun a b => a ≤ b))
    | some (Node.file _) => .error Error.ENOTDIR
    | none => .error (missingErr fs dirname)

/-- `filepath.WalkFunc`, with the state `τ` its closure works on. -/
abbrev WalkFunc (τ : Type) := List Char → Option FileStat → Option Error → τ → Option Error × τ

/-- The `for _, name := range names` loop of `walk`; `recur` is `walk` on
the entries below. -/
def walkNames {τ : Type} (recur : List Char → FileStat → τ → Option Error × τ)
    (fs : FS) (walkFn : WalkFunc τ) (path : List Char) : List (List Char) → τ → Option Error × τ
  | [], t => (none, t)
  | name :: rest, t =>
    let filename := Join [path, name]
    match Lstat fs filename with
    | .error err =>
      let r := walkFn filename none (some err) t
      if r.1 ≠ none ∧ r.1 ≠ some Error.SkipDir then r
      else walkNames recur fs walkFn path rest r.2
    | .ok fileInfo =>
      let r := recur filename fileInfo t
      if r.1 ≠ none ∧ (fileInfo.isDir = false ∨ r.1 ≠ some Error.SkipDir) then r
      else walkNames recur fs walkFn path rest r.2

/-- `walk(path, info, walkFn)` of path/filepath; the first argument bounds
the depth of the descent. -/
def walk {τ : Type} (fs : FS) (walkFn : WalkFunc τ) :
    Nat → List Char → FileStat → τ → Option Error × τ
  | 0, _, _, t => (none, t)
  | fuel + 1, path, info, t =>
    if info.isDir = false then walkFn path (some info) none t
    else
      match readDirNames fs path with
      | .error err => walkFn path (some info) (some err) t
      | .ok names =>
        let r1 := walkFn path (some info) none t
        if r1.1 ≠ none then r1
        else walkNames (walk fs walkFn fuel) fs walkFn path names r1.2

/-- `filepath.Walk(root, walkFn)`. -/
def Walk {τ : Type} (fs : FS) (root : List Char) (walkFn : WalkFunc τ) (t : τ) :
    Option Error × τ :=
  let r :=
    match Lstat fs root with
    | .error err => walkFn root none (some err) t
    | .ok info => walk fs walkFn (fs.length + 1) root info t
  if r.1 = some Error.SkipDir then (none, r.2) else r

/-! ## fd/driver.go -/

namespace fd

/-- `os.ModeDir`. -/
def ModeDir : Nat := 2 ^ 31

/-- The part of the `ftp.Perm` interface the driver reads. -/
structure Perm where
  GetOwner : List Char → Except Error String
  GetGroup : List Char → Except Error String
  GetMode : List Char → Except Error Nat

/-- `type Driver struct { RootPath string; ftp.Perm }`. -/
structure Driver where
  RootPath : List Char
  Perm : Perm

/-- `type FileInfo struct { os.FileInfo; mode; owner; group }`. -/
structure FileInfo where
  info : FileStat
  mode : Nat
  owner : String
  group : String
  deriving DecidableEq, Repr

/-- `func (d *Driver) realPath(path string) string`. -/
def Driver.realPath (d : Driver) (path : List Char) : List Char :=
  let paths := Split path
  Join (d.RootPath :: paths)

/-- The closure that `ListDir` hands to `filepath.Walk`. Its state is the
list of values the callback has been invoked with, oldest first. -/
def Driver.listDirFn (d : Driver) (basepath : List Char) (callback : FileInfo → Option Error) :
    WalkFunc (List FileInfo) :=
  fun f info err seen =>
    match err, info with
    | some e, _ => (some e, seen)
    | none, none => (none, seen)
    | none, some info =>
      let rPath : List Char :=
        match Rel basepath f with
        | .ok r => r
        | .error _ => []
      if rPath = info.name then
        match d.Perm.GetMode rPath with
        | .error e => (some e, seen)
        | .ok mode0 =>
          let mode := if info.isDir then mode0 ||| ModeDir else mode0
          match d.Perm.GetOwner rPath with
          | .error e => (some e, seen)
          | .ok owner =>
            match d.Perm.GetGroup rPath with
            | .error e => (some e, seen)
            | .ok group =>
              let fi : FileInfo := { info := info, mode := mode, owner := owner, group := group }
              match callback fi with
              | some e => (some e, seen ++ [fi])
              | none =>
                if info.isDir then (some Error.SkipDir, seen ++ [fi])
                else (none, seen ++ [fi])
      else (none, seen)

/-- `func (d *Driver) ListDir(path string, callback func(ftp.FileInfo) error) error`.
Returns the error and the sequence of callback invocations. -/
def Driver.ListDir (d : Driver) (path : List Char) (callback : FileInfo → Option Error)
    (fs : FS) : Option Error × List FileInfo :=
  let basepath := d.realPath path
  Walk fs basepath (d.listDirFn basepath callback) []

/-- `func (d *Driver) DeleteDir(path string) error`. -/
def Driver.DeleteDir (d : Driver) (path : List Char) (fs : FS) : Except Error FS :=
  let rPath := d.realPath path
  match Lstat fs rPath with
  | .error err => .error err
  | .ok f =>
    if f.isDir then Remove fs rPath
    else .error (Error.New "Not a directory")

/-- `func (d *Driver) MakeDir(path string) error`. -/
def Driver.MakeDir (d : Driver) (path : List Char) (fs : FS) : Except Error FS :=
  let rPath := d.realPath path
  MkdirAll fs (rPath.length + 1) rPath

/-- `func (d *Driver) GetFile(path string, offset int64) (int64, io.ReadCloser, error)`. -/
def Driver.GetFile (d : Driver) (path : List Char) (offset : Int) (fs : FS) :
    Except Error (Int × File) :=
  let rPath := d.realPath path
  match Open fs rPath with
  | .error err => .error err
  | .ok f =>
    match f.Stat fs with
    | .error err => .error err
    | .ok info =>
      match f.SeekStart offset with
      | .error err => .error err
      | .ok f1 => .ok (info.size, f1)

/-- The tail of `PutFile` after the `Lstat` block, from
`if appendData && !isExist` on. -/
def putFileWrite (rPath : List Char) (offset : Int) (data : Reader) (appendData0 isExist : Bool)
    (fs : FS) : (Int × Option Error) × FS :=
  let appendData := if appendData0 && !isExist then false else appendData0
  if appendData = false then
    let removed : Except Error FS := if isExist then Remove fs rPath else .ok fs
    match removed with
    | .error err => ((0, some err), fs)
    | .ok fs1 =>
      match Create fs1 rPath with
      | .error err => ((0, some err), fs1)
      | .ok (f, fs2) =>
        match f.SeekStart offset with
        | .error err => ((0, some err), fs2)
        | .ok f1 =>
          let c := copyTo fs2 f1 data
          match c.1.2 with
          | some err => ((0, some err), c.2)
          | none => ((c.1.1, none), c.2)
  else
    -- flags := os.O_WRONLY; if offset == 0 { flags |= os.O_APPEND }
    match OpenFileWrite fs rPath (decide (offset = 0)) with
    | .error err => ((0, some err), fs)
    | .ok of0 =>
      let sought : Except Error File :=
        if offset = 0 then of0.SeekEnd fs else of0.SeekStart offset
      match sought with
      | .error err => ((0, some err), fs)
      | .ok of1 =>
        let c := copyTo fs of1 data
        match c.1.2 with
        | some err => ((0, some err), c.2)
        | none => ((c.1.1, none), c.2)

/-- `func (d *Driver) PutFile(destPath string, offset int64, data io.Reader,
appendData bool) (int64, error)`. -/
def Driver.PutFile (d : Driver) (destPath : List Char) (offset : Int) (data : Reader)
    (appendData : Bool) (fs : FS) : (Int × Option Error) × FS :=
  let rPath := d.realPath destPath
  match Lstat fs rPath with
  | .ok f =>
    if f.isDir then ((0, some (Error.New "A dir has the same name")), fs)
    else putFileWrite rPath offset data appendData true fs
  | .error err =>
    if IsNotExist err then putFileWrite rPath offset data appendData false fs
    else ((0, some (Error.New "Put File error")), fs)

end fd

/-! ## Fixtures used to instantiate the statements -/

/-- A permission table that answers every query with the same owner, group
and mode and never fails. -/
def constPerm (owner group : String) (mode : Nat) : fd.Perm :=
  { GetOwner := fun _ => .ok owner
    GetGroup := fun _ => .ok group
    GetMode := fun _ => .ok mode }

/-- A driver rooted at the host directory `/srv`. -/
def srvDriver : fd.Driver :=
  { RootPath := "/srv".toList, Perm := constPerm "test" "test" 0o777 }

/-- A host holding the empty directory `/srv`. -/
def srvEmpty : FS :=
  [("/".toList, Node.dir), ("/srv".toList, Node.dir)]

/-- A host where `/srv/hello.txt` holds the bytes of `world`. -/
def srvHello : FS :=
  [("/".toList, Node.dir), ("/srv".toList, Node.dir),
   ("/srv/hello.txt".toList, Node.file [119, 111, 114, 108, 100])]

/-- A driver rooted at the working directory, `RootPath = "."`. -/
def dotDriver : fd.Driver :=
  { RootPath := ".".toList, Perm := constPerm "test" "test" 0o777 }

/-- A working directory holding the file `a` and the directory `sub`, which
holds the file `x`. -/
def dotTree : FS :=
  [(".".toList, Node.dir), ("a".toList, Node.file [1, 2]), ("sub".toList, Node.dir),
   ("sub/x".toList, Node.file [])]

/-- The same tree below `/srv`. -/
def srvTree : FS :=
  [("/".toList, Node.dir), ("/srv".toList, Node.dir), ("/srv/a".toList, Node.file [1, 2]),
   ("/srv/sub".toList, Node.dir), ("/srv/sub/x".toList, Node.file [])]

/-! ## Theorems: auth.go -/

theorem nat_or_eq_zero (a b : Nat) : a ||| b = 0 ↔ a = 0 ∧ b = 0 := by
  constructor
  · intro h
    have key : ∀ i, (a.testBit i || b.testBit i) = false := by
      intro i
      have := congrArg (fun n => Nat.testBit n i) h
      simpa [Nat.testBit_or] using this
    constructor
    · apply Nat.eq_of_testBit_eq
      intro i
      have := key i
      simp only [Bool.or_eq_false_iff] at this
      simp [this.1]
    · apply Nat.eq_of_testBit_eq
      intro i
      have := key i
      simp only [Bool.or_eq_false_iff] at this
      simp [this.2]
  · rintro ⟨rfl, rfl⟩
    rfl

theorem byte_step_lt (v : Nat) (x y : Byte) : (v ||| (x.val ^^^ y.val)) % 256 < 256 :=
  Nat.mod_lt _ (by decide)

theorem byte_step_eq_zero (v : Nat) (hv : v < 256) (x y : Byte) :
    (v ||| (x.val ^^^ y.val)) % 256 = 0 ↔ v = 0 ∧ x = y := by
  have hx : x.val ^^^ y.val < 2 ^ 8 := Nat.xor_lt_two_pow (by simp) (by simp)
  have hv8 : v < 2 ^ 8 := by simpa using hv
  have hlt : v ||| (x.val ^^^ y.val) < 256 := by
    simpa using Nat.or_lt_two_pow hv8 hx
  rw [Nat.mod_eq_of_lt hlt, nat_or_eq_zero, Nat.xor_eq_zero]
  constructor
  · rintro ⟨h1, h2⟩
    exact ⟨h1, Fin.ext h2⟩
  · rintro ⟨h1, h2⟩
    exact ⟨h1, congrArg Fin.val h2⟩

theorem ctAccumulate_lt : ∀ (xs ys : List Byte) (v : Nat), v < 256 → ctAccumulate xs ys v < 256
  | [], _, v, hv => by simpa [ctAccumulate] using hv
  | _ :: _, [], v, hv => by simpa [ctAccumulate] using hv
  | x :: xs, y :: ys, v, _ => by
    simpa [ctAccumulate] using ctAccumulate_lt xs ys _ (byte_step_lt v x y)

theorem ctAccumulate_eq_zero : ∀ (xs ys : List Byte) (v : Nat), v < 256 →
    xs.length = ys.length → (ctAccumulate xs ys v = 0 ↔ v = 0 ∧ xs = ys)
  | [], [], v, _, _ => by simp [ctAccumulate]
  | [], _ :: _, _, _, h => by simp at h
  | _ :: _, [], _, _, h => by simp at h
  | x :: xs, y :: ys, v, hv, h => by
    have hlen : xs.length = ys.length := by simpa using h
    simp only [ctAccumulate]
    rw [ctAccumulate_eq_zero xs ys _ (byte_step_lt v x y) hlen, byte_step_eq_zero v hv]
    constructor
    · rintro ⟨⟨h1, h2⟩, h3⟩
      exact ⟨h1, by rw [h2, h3]⟩
    · rintro ⟨h1, h2⟩
      injection h2 with h2 h3
      exact ⟨⟨h1, h2⟩, h3⟩

theorem ConstantTimeByteEq_zero_right (v : Nat) (hv : v < 256) :
    ConstantTimeByteEq v 0 = 1 ↔ v = 0 := by
  unfold ConstantTimeByteEq
  constructor
  · intro h
    by_contra hne
    have h1 : (v ^^^ 0) = v := by simp
    rw [h1] at h
    have h2 : v % 2 ^ 32 = v := Nat.mod_eq_of_lt (by omega)
    rw [h2] at h
    have h3 : (v + 2 ^ 32 - 1) % 2 ^ 32 = v - 1 := by omega
    rw [h3, Nat.shiftRight_eq_div_pow] at h
    have h4 : (v - 1) / 2 ^ 31 = 0 := Nat.div_eq_of_lt (by omega)
    omega
  · rintro rfl
    decide

theorem constantTimeEquals_iff (a b : List Byte) : constantTimeEquals a b = true ↔ a = b := by
  unfold constantTimeEquals ConstantTimeCompare
  constructor
  · intro h
    simp only [Bool.and_eq_true, decide_eq_true_eq] at h
    obtain ⟨hlen, hcmp⟩ := h
    simp only [hlen, ne_eq, not_true_eq_false, if_false] at hcmp
    have hz := (ConstantTimeByteEq_zero_right _ (ctAccumulate_lt a b 0 (by decide))).1 hcmp
    exact ((ctAccumulate_eq_zero a b 0 (by decide) hlen).1 hz).2
  · rintro rfl
    have hz : ctAccumulate a a 0 = 0 := (ctAccumulate_eq_zero a a 0 (by decide) rfl).2 ⟨rfl, rfl⟩
    simp [hz, ConstantTimeByteEq]

/-- C1: `SimpleAuth.CheckPasswd(name, pass)` never returns an error, and its
boolean is `true` exactly when `name` equals the configured `Name` and `pass`
equals the configured `Password`; in every other case it is `false`. -/
theorem CheckPasswd_spec (a : SimpleAuth) (name pass : List Byte) :
    (a.CheckPasswd name pass = (true, none) ↔ (name = a.Name ∧ pass = a.Password)) ∧
    (¬ (name = a.Name ∧ pass = a.Password) → a.CheckPasswd name pass = (false, none)) ∧
    (a.CheckPasswd name pass).2 = none := by
  have hiff : (constantTimeEquals name a.Name && constantTimeEquals pass a.Password) = true ↔
      (name = a.Name ∧ pass = a.Password) := by
    rw [Bool.and_eq_true, constantTimeEquals_iff, constantTimeEquals_iff]
  refine ⟨?_, ?_, rfl⟩
  · unfold SimpleAuth.CheckPasswd
    constructor
    · intro h
      exact hiff.1 (congrArg Prod.fst h)
    · intro h
      rw [hiff.2 h]
  · intro h
    unfold SimpleAuth.CheckPasswd
    have : (constantTimeEquals name a.Name && constantTimeEquals pass a.Password) = false := by
      cases hb : (constantTimeEquals name a.Name && constantTimeEquals pass a.Password)
      · rfl
      · exact absurd (hiff.1 hb) h
    rw [this]

/-! ## Theorems: vd/vd.go -/

/-- C7: for every name other than `/output`, `vd.Driver.PutFile` returns
`(0, err)` with a non-nil error, and the proxy is left untouched: no
`ProxyFrom` invocation is recorded and the proxy state is unchanged. -/
theorem vd_PutFile_other_name {σ ρ : Type} (d : vd.Driver σ ρ) (name : List Char)
    (offset : Int) (r : ρ) ( append : Bool) (w : vd.World σ ρ)
    (hname : name ≠ "/output".toList) :
    ∃ e, d.PutFile name offset r append w = ((0, some e), w) := by
  refine ⟨Error.New "unexpected file name", ?_⟩
  have h : name ≠ '/' :: vd.fileName := hname
  simp [vd.Driver.PutFile, vd.Driver.PutFileBody, h]

theorem vd_PutFile_other_name_witness :
    ∃ e, (vd.Driver.PutFile (σ := Nat) (ρ := List Byte)
        { proxy := { ProxyFrom := fun r _ s => ((r.length, none), s + 1),
                     Close := fun s => (none, s) },
          size := 0 }
        "/not-found".toList 1000 [98, 97, 122] false { state := 0, calls := [] })
      = ((0, some e), { state := 0, calls := [] }) :=
  vd_PutFile_other_name _ "/not-found".toList 1000 [98, 97, 122] false _ (by decide)

/-- C8: for the name `/output`, `vd.Driver.PutFile` invokes `ProxyFrom`
exactly once, with the same reader and the same offset, returns exactly the
pair that invocation returned, and the append flag does not matter. -/
theorem vd_PutFile_output {σ ρ : Type} (d : vd.Driver σ ρ) (offset : Int) (r : ρ)
    ( append : Bool) (w : vd.World σ ρ) :
    d.PutFile "/output".toList offset r append w =
        ((d.proxy.ProxyFrom r offset w.state).1,
         { state := (d.proxy.ProxyFrom r offset w.state).2,
           calls := w.calls ++ [(r, offset)] }) ∧
    d.PutFile "/output".toList offset r append w =
      d.PutFile "/output".toList offset r (!append) w := by
  have h : ¬ ("/output".toList ≠ '/' :: vd.fileName) := by decide
  have key : ∀ b : Bool, d.PutFile "/output".toList offset r b w =
      ((d.proxy.ProxyFrom r offset w.state).1,
       { state := (d.proxy.ProxyFrom r offset w.state).2,
         calls := w.calls ++ [(r, offset)] }) := by
    intro b
    unfold vd.Driver.PutFile vd.Driver.PutFileBody
    rw [if_neg h]
    rfl
  exact ⟨key append, (key append).trans (key (!append)).symm⟩

/-! ## Theorems: the host file system table -/

theorem FS.lookup_erase_self (fs : FS) (p : List Char) : (fs.erase p).lookup p = none := by
  unfold FS.lookup FS.erase
  induction fs with
  | nil => rfl
  | cons e rest ih =>
    by_cases hp : e.1 = p
    · simp [List.filter_cons, hp]
    · simp [List.filter_cons, hp]

theorem FS.lookup_erase_ne (fs : FS) (p q : List Char) (h : q ≠ p) :
    (fs.erase p).lookup q = fs.lookup q := by
  unfold FS.lookup FS.erase
  induction fs with
  | nil => rfl
  | cons e rest ih =>
    by_cases hq : e.1 = q
    · have hp : e.1 ≠ p := by rw [hq]; exact h
      rw [List.filter_cons_of_pos (by simpa using hp), List.find?_cons_of_pos _ (by simpa using hq),
        List.find?_cons_of_pos _ (by simpa using hq)]
    · by_cases hp : e.1 = p
      · rw [List.filter_cons_of_neg (by simpa using hp), List.find?_cons_of_neg _ (by simpa using hq)]
        exact ih
      · rw [List.filter_cons_of_pos (by simpa using hp), List.find?_cons_of_neg _ (by simpa using hq),
          List.find?_cons_of_neg _ (by simpa using hq)]
        exact ih

theorem FS.lookup_append_of_none (fs gs : FS) (q : List Char) (h : fs.lookup q = none) :
    FS.lookup (fs ++ gs) q = FS.lookup gs q := by
  unfold FS.lookup at *
  rw [List.find?_append]
  cases hf : List.find? (fun e => decide (e.1 = q)) fs with
  | none => rfl
  | some e => rw [hf] at h; simp at h

theorem FS.lookup_append_of_some (fs gs : FS) (q : List Char) (n : Node)
    (h : fs.lookup q = some n) : FS.lookup (fs ++ gs) q = some n := by
  unfold FS.lookup at *
  rw [List.find?_append]
  cases hf : List.find? (fun e => decide (e.1 = q)) fs with
  | none => rw [hf] at h; simp at h
  | some e => rw [hf] at h; simpa using h

theorem FS.lookup_set_self (fs : FS) (p : List Char) (n : Node) :
    (fs.set p n).lookup p = some n := by
  unfold FS.set
  rw [FS.lookup_append_of_none _ _ _ (FS.lookup_erase_self fs p)]
  simp [FS.lookup]

theorem FS.lookup_set_ne (fs : FS) (p q : List Char) (n : Node) (h : q ≠ p) :
    (fs.set p n).lookup q = fs.lookup q := by
  unfold FS.set
  cases hq : (fs.erase p).lookup q with
  | none =>
    rw [FS.lookup_append_of_none _ _ _ hq, ← FS.lookup_erase_ne fs p q h, hq]
    simp [FS.lookup, Ne.symm h]
  | some m =>
    rw [FS.lookup_append_of_some _ _ _ _ hq, ← FS.lookup_erase_ne fs p q h, hq]

theorem FS.erase_eq_self (fs : FS) (p : List Char) (h : fs.lookup p = none) : fs.erase p = fs := by
  unfold FS.lookup at h
  unfold FS.erase
  rw [List.filter_eq_self]
  intro e he
  cases hf : List.find? (fun e => decide (e.1 = p)) fs with
  | some e1 => rw [hf] at h; simp at h
  | none =>
    have := List.find?_eq_none.1 hf e he
    simpa using this

theorem FS.erase_set (fs : FS) (p : List Char) (n : Node) :
    (fs.set p n).erase p = fs.erase p := by
  unfold FS.set FS.erase
  simp [List.filter_append, List.filter_filter]

theorem missingErr_of_parent_dir (fs : FS) (p : List Char)
    (h : fs.lookup (parentOf p) = some Node.dir) : missingErr fs p = Error.ENOENT := by
  unfold missingErr
  cases hp : p.length with
  | zero => simp [underFile]
  | succ n =>
    simp only [underFile]
    by_cases hq : parentOf p = p
    · simp [hq]
    · simp [hq, h]

/-! ## Theorems: fd.Driver.PutFile and GetFile -/

theorem writeAt_nil_zero (B : List Byte) : writeAt [] 0 B = B := by
  unfold writeAt
  by_cases h : B = []
  · simp [h]
  · simp [h]

theorem writeAt_end (C B : List Byte) : writeAt C C.length B = C ++ B := by
  unfold writeAt
  by_cases h : B = []
  · simp [h]
  · simp [h]

theorem parentOf_ne_of_lookup (fs : FS) (rp : List Char)
    (hnd : fs.lookup rp ≠ some Node.dir) (hpar : fs.lookup (parentOf rp) = some Node.dir) :
    parentOf rp ≠ rp := by
  intro h
  rw [h] at hpar
  exact hnd hpar

theorem copyTo_fits (fs : FS) (f : File) (B content : List Byte)
    (hl : fs.lookup f.name = some (Node.file content))
    (hfit : (if f.appendMode then content.length else f.pos) + B.length ≤ maxFileSize) :
    copyTo fs f ⟨B, none⟩ =
      (((B.length : Int), none),
        fs.set f.name
          (Node.file (writeAt content (if f.appendMode then content.length else f.pos) B))) := by
  unfold copyTo
  simp only [hl]
  rw [if_pos (by omega)]

theorem SeekStart_ok (f : File) (offset : Int) (h0 : 0 ≤ offset)
    (hmax : offset ≤ (maxFileSize : Int)) :
    f.SeekStart offset = .ok { f with pos := offset.toNat } := by
  unfold File.SeekStart
  rw [if_neg (by omega)]

/-- The non-append branch of `PutFile` on a target that is missing or a
regular file, in an existing directory. -/
theorem putFileWrite_create (rp : List Char) (offset : Int) (B : List Byte)
    (appendData0 isExist : Bool) (fs : FS)
    (hname : nameError rp = none)
    (hmode : appendData0 = false ∨ isExist = false)
    (hex : isExist = true → ∃ c, fs.lookup rp = some (Node.file c))
    (hnex : isExist = false → fs.lookup rp = none)
    (hpar : fs.lookup (parentOf rp) = some Node.dir) (hoff : 0 ≤ offset)
    (hsize : offset + (B.length : Int) ≤ (maxFileSize : Int)) :
    fd.putFileWrite rp offset ⟨B, none⟩ appendData0 isExist fs =
      (((B.length : Int), none),
        ((fs.erase rp).set rp (Node.file [])).set rp (Node.file (writeAt [] offset.toNat B))) := by
  have hnd : fs.lookup rp ≠ some Node.dir := by
    cases isExist with
    | true => obtain ⟨c, hc⟩ := hex rfl; rw [hc]; simp
    | false => rw [hnex rfl]; simp
  have hne : parentOf rp ≠ rp := parentOf_ne_of_lookup fs rp hnd hpar
  have happ : (if (appendData0 && !isExist) = true then false else appendData0) = false := by
    rcases hmode with h | h <;> subst h <;> simp
  have hrem : (if isExist = true then Remove fs rp else Except.ok fs) = Except.ok (fs.erase rp) := by
    cases isExist with
    | true =>
      obtain ⟨c, hc⟩ := hex rfl
      simp [Remove, hname, hc]
    | false =>
      simp [FS.erase_eq_self fs rp (hnex rfl)]
  have hcreate : Create (fs.erase rp) rp =
      Except.ok ({ name := rp, pos := 0, appendMode := false }, (fs.erase rp).set rp (Node.file [])) := by
    unfold Create
    rw [hname]
    simp only []
    rw [FS.lookup_erase_self]
    simp only []
    rw [FS.lookup_erase_ne fs rp _ hne, hpar]
  have hseek : File.SeekStart { name := rp, pos := 0, appendMode := false } offset =
      Except.ok { name := rp, pos := offset.toNat, appendMode := false } :=
    SeekStart_ok _ offset hoff (by omega)
  have hcopy : copyTo ((fs.erase rp).set rp (Node.file []))
      { name := rp, pos := offset.toNat, appendMode := false } ⟨B, none⟩ =
      (((B.length : Int), none),
        ((fs.erase rp).set rp (Node.file [])).set rp (Node.file (writeAt [] offset.toNat B))) := by
    have := copyTo_fits ((fs.erase rp).set rp (Node.file []))
      { name := rp, pos := offset.toNat, appendMode := false } B []
      (FS.lookup_set_self _ _ _) (by simp only [Bool.false_eq_true, if_false]; omega)
    simpa using this
  unfold fd.putFileWrite
  simp only [happ, if_true, hrem, hcreate, hseek, hcopy]

/-- The append branch of `PutFile` on an existing regular file. -/
theorem putFileWrite_append (rp : List Char) (offset : Int) (B C : List Byte) (fs : FS)
    (hname : nameError rp = none)
    (hC : fs.lookup rp = some (Node.file C)) (hoff : 0 ≤ offset)
    (hsize : (if offset = 0 then (C.length : Int) else offset) + (B.length : Int)
      ≤ (maxFileSize : Int)) :
    fd.putFileWrite rp offset ⟨B, none⟩ true true fs =
      (((B.length : Int), none),
        fs.set rp (Node.file (writeAt C (if offset = 0 then C.length else offset.toNat) B))) := by
  have hopen : ∀ b, OpenFileWrite fs rp b = .ok { name := rp, pos := 0, appendMode := b } := by
    intro b
    simp [OpenFileWrite, hname, hC]
  unfold fd.putFileWrite
  by_cases h0 : offset = 0
  · subst h0
    simp only [if_true] at hsize
    have hcopy := copyTo_fits fs { name := rp, pos := C.length, appendMode := true } B C hC
      (by simp only [if_true]; omega)
    simp only [if_true] at hcopy
    simp [hopen, File.SeekEnd, hC, hcopy]
  · simp only [h0, if_false] at hsize
    have hseek := SeekStart_ok { name := rp, pos := 0, appendMode := false } offset hoff
      (by omega)
    have hcopy := copyTo_fits fs { name := rp, pos := offset.toNat, appendMode := false } B C hC
      (by simp only [Bool.false_eq_true, if_false]; omega)
    simp only [Bool.false_eq_true, if_false] at hcopy
    simp [hopen, h0, hseek, hcopy]

theorem Lstat_file (fs : FS) (rp : List Char) (C : List Byte)
    (hname : nameError rp = none) (h : fs.lookup rp = some (Node.file C)) :
    Lstat fs rp = .ok { name := basename rp, size := C.length, isDir := false } := by
  simp [Lstat, hname, h]

theorem Lstat_missing (fs : FS) (rp : List Char)
    (hname : nameError rp = none) (h : fs.lookup rp = none) :
    Lstat fs rp = .error (missingErr fs rp) := by
  simp [Lstat, hname, h]

/-- What `PutFile` leaves when it takes the create branch. -/
theorem PutFile_create (d : fd.Driver) (p : List Char) (offset : Int) (B : List Byte)
    (appendData : Bool) (fs : FS)
    (hname : nameError (d.realPath p) = none)
    (hcase : fs.lookup (d.realPath p) = none ∨
      (appendData = false ∧ ∃ c, fs.lookup (d.realPath p) = some (Node.file c)))
    (hpar : fs.lookup (parentOf (d.realPath p)) = some Node.dir) (hoff : 0 ≤ offset)
    (hsize : offset + (B.length : Int) ≤ (maxFileSize : Int)) :
    d.PutFile p offset ⟨B, none⟩ appendData fs =
      (((B.length : Int), none),
        ((fs.erase (d.realPath p)).set (d.realPath p) (Node.file [])).set (d.realPath p)
          (Node.file (writeAt [] offset.toNat B))) := by
  unfold fd.Driver.PutFile
  rcases hcase with hnone | ⟨happ, c, hc⟩
  · simp only [Lstat_missing fs _ hname hnone, missingErr_of_parent_dir fs _ hpar, IsNotExist]
    simp only [decide_True, if_true]
    exact putFileWrite_create _ offset B appendData false fs hname (Or.inr rfl) (by simp)
      (fun _ => hnone) hpar hoff hsize
  · simp only [Lstat_file fs _ c hname hc]
    simp only [Bool.false_eq_true, if_false]
    exact putFileWrite_create _ offset B appendData true fs hname (Or.inl happ)
      (fun _ => ⟨c, hc⟩) (by simp) hpar hoff hsize

/-- What `PutFile` leaves when it takes the append branch: the target is a
regular file and the append flag is set. -/
theorem PutFile_append (d : fd.Driver) (p : List Char) (offset : Int) (B C : List Byte)
    (fs : FS)
    (hname : nameError (d.realPath p) = none)
    (hC : fs.lookup (d.realPath p) = some (Node.file C)) (hoff : 0 ≤ offset)
    (hsize : (if offset = 0 then (C.length : Int) else offset) + (B.length : Int)
      ≤ (maxFileSize : Int)) :
    d.PutFile p offset ⟨B, none⟩ true fs =
      (((B.length : Int), none),
        fs.set (d.realPath p)
          (Node.file (writeAt C (if offset = 0 then C.length else offset.toNat) B))) := by
  unfold fd.Driver.PutFile
  simp only [Lstat_file fs _ C hname hC, Bool.false_eq_true, if_false]
  exact putFileWrite_append _ offset B C fs hname hC hoff hsize

/-- C3 (amended): store/retrieve round trip. For a logical path whose host
path the host accepts as a name, that is not a directory and whose parent
directory exists, and a byte string `B` within the host's maximum file
size, `PutFile(p, 0, B, false)` returns `(|B|, nil)`, leaves exactly `B` at
`p` and every other host path as it was, and a following `GetFile(p, k)`
with `0 <= k <= |B|` returns the size `|B|` and a stream that reads
`B[k:]`. -/
theorem PutFile_GetFile_roundtrip (d : fd.Driver) (p : List Char) (B : List Byte) (k : Int)
    (fs : FS)
    (hname : nameError (d.realPath p) = none)
    (hnd : fs.lookup (d.realPath p) ≠ some Node.dir)
    (hpar : fs.lookup (parentOf (d.realPath p)) = some Node.dir)
    (hsize : B.length ≤ maxFileSize)
    (hk : 0 ≤ k) (hkB : k ≤ (B.length : Int)) :
    (d.PutFile p 0 ⟨B, none⟩ false fs).1 = ((B.length : Int), none) ∧
    (d.PutFile p 0 ⟨B, none⟩ false fs).2.lookup (d.realPath p) = some (Node.file B) ∧
    (∀ q, q ≠ d.realPath p →
      (d.PutFile p 0 ⟨B, none⟩ false fs).2.lookup q = fs.lookup q) ∧
    ∃ f, d.GetFile p k (d.PutFile p 0 ⟨B, none⟩ false fs).2 = .ok ((B.length : Int), f) ∧
      f.readAll (d.PutFile p 0 ⟨B, none⟩ false fs).2 = .ok (B.drop k.toNat) := by
  have hcase : fs.lookup (d.realPath p) = none ∨
      (false = false ∧ ∃ c, fs.lookup (d.realPath p) = some (Node.file c)) := by
    cases h : fs.lookup (d.realPath p) with
    | none => exact Or.inl rfl
    | some n =>
      cases n with
      | file c => exact Or.inr ⟨rfl, c, rfl⟩
      | dir => exact absurd h hnd
  rw [PutFile_create d p 0 B false fs hname hcase hpar (le_refl 0) (by omega)]
  simp only [Int.toNat_zero, writeAt_nil_zero]
  have hl : FS.lookup (((fs.erase (d.realPath p)).set (d.realPath p) (Node.file [])).set
      (d.realPath p) (Node.file B)) (d.realPath p) = some (Node.file B) :=
    FS.lookup_set_self _ _ _
  refine ⟨trivial, hl, ?_, ?_⟩
  · intro q hq
    rw [FS.lookup_set_ne _ _ _ _ hq, FS.lookup_set_ne _ _ _ _ hq, FS.lookup_erase_ne _ _ _ hq]
  · refine ⟨{ name := d.realPath p, pos := k.toNat, appendMode := false }, ?_, ?_⟩
    · have hseek := SeekStart_ok { name := d.realPath p, pos := 0, appendMode := false } k hk
        (by omega)
      simp [fd.Driver.GetFile, Open, File.Stat, Lstat, hname, hl, hseek]
    · simp [File.readAll, hl]

theorem PutFile_GetFile_roundtrip_witness :
    (srvDriver.PutFile "/hello.txt".toList 0 ⟨[116, 101, 115, 116], none⟩ false srvHello).1
        = (((([116, 101, 115, 116] : List Byte).length : Nat) : Int), none) ∧
    (srvDriver.PutFile "/hello.txt".toList 0 ⟨[116, 101, 115, 116], none⟩ false srvHello).2.lookup
        (srvDriver.realPath "/hello.txt".toList) = some (Node.file [116, 101, 115, 116]) ∧
    (∀ q, q ≠ srvDriver.realPath "/hello.txt".toList →
      (srvDriver.PutFile "/hello.txt".toList 0 ⟨[116, 101, 115, 116], none⟩ false srvHello).2.lookup q
        = srvHello.lookup q) ∧
    ∃ f, srvDriver.GetFile "/hello.txt".toList 1
          (srvDriver.PutFile "/hello.txt".toList 0 ⟨[116, 101, 115, 116], none⟩ false srvHello).2
        = .ok (((([116, 101, 115, 116] : List Byte).length : Nat) : Int), f) ∧
      f.readAll (srvDriver.PutFile "/hello.txt".toList 0 ⟨[116, 101, 115, 116], none⟩ false srvHello).2
        = .ok (([116, 101, 115, 116] : List Byte).drop (1 : Int).toNat) :=
  PutFile_GetFile_roundtrip srvDriver "/hello.txt".toList [116, 101, 115, 116] 1 srvHello
    (by decide) (by decide) (by decide) (by decide) (by decide) (by decide)

/-- C3 as stated fails: `/a/b` is not a directory on a host whose `/srv/a`
does not exist, yet `PutFile("/a/b", 0, B, false)` returns `(0, ENOENT)` and
stores nothing. -/
theorem PutFile_roundtrip_missing_parent :
    srvEmpty.lookup (srvDriver.realPath "/a/b".toList) ≠ some Node.dir ∧
    srvDriver.PutFile "/a/b".toList 0 ⟨[116, 101, 115, 116], none⟩ false srvEmpty
      = ((0, some Error.ENOENT), srvEmpty) := by
  decide

theorem writeAt_inside (C B : List Byte) (n : Nat) (hn : n ≤ C.length) :
    writeAt C n B = C.take n ++ B ++ C.drop (n + B.length) := by
  unfold writeAt
  by_cases hB : B = []
  · subst hB
    simp
  · rw [if_neg hB, Nat.sub_eq_zero_of_le hn]
    simp

/-- C4 (amended): what `PutFile` does at an offset `n > 0` on an existing
regular file holding `C` (host path accepted as a name, parent directory
present, `n <= |C|`, sizes within the host's maximum file size). Without
the append flag the file is removed and created anew before the seek: the
call returns `(|B|, nil)` and the file holds `n` zero bytes followed by `B`
(nothing when `B` is empty), the old bytes are gone. With the append flag
the file is opened in place: the call keeps the bytes before `n` and
overwrites from `n`, and at `n = |C|` it leaves `C ++ B`; so
`PutFile(p, 0, B1, false)` followed by `PutFile(p, |B1|, B, true)` leaves
`B1 ++ B`. -/
theorem PutFile_at_offset (d : fd.Driver) (p : List Char) (n : Nat) (B C B1 : List Byte)
    (fs : FS)
    (hname : nameError (d.realPath p) = none)
    (hC : fs.lookup (d.realPath p) = some (Node.file C))
    (hpar : fs.lookup (parentOf (d.realPath p)) = some Node.dir)
    (hn : 0 < n) (hnC : n ≤ C.length)
    (hsize : C.length + B.length ≤ maxFileSize)
    (hsize1 : B1.length + B.length ≤ maxFileSize) :
    (d.PutFile p n ⟨B, none⟩ false fs).1 = ((B.length : Int), none) ∧
    (d.PutFile p n ⟨B, none⟩ false fs).2.lookup (d.realPath p) =
      some (Node.file (if B = [] then [] else List.replicate n (0 : Byte) ++ B)) ∧
    d.PutFile p n ⟨B, none⟩ true fs =
      (((B.length : Int), none),
        fs.set (d.realPath p) (Node.file (C.take n ++ B ++ C.drop (n + B.length)))) ∧
    (d.PutFile p C.length ⟨B, none⟩ true fs).2.lookup (d.realPath p) =
      some (Node.file (C ++ B)) ∧
    (d.PutFile p B1.length ⟨B, none⟩ true (d.PutFile p 0 ⟨B1, none⟩ false fs).2).2.lookup
      (d.realPath p) = some (Node.file (B1 ++ B)) := by
  have hn0 : ((n : Nat) : Int) ≠ 0 := by omega
  have hend : ∀ (fs1 : FS) (X : List Byte), fs1.lookup (d.realPath p) = some (Node.file X) →
      X.length + B.length ≤ maxFileSize →
      (d.PutFile p X.length ⟨B, none⟩ true fs1).2.lookup (d.realPath p) =
        some (Node.file (X ++ B)) := by
    intro fs1 X hX hfit
    rw [PutFile_append d p X.length B X fs1 hname hX (by omega)
      (by split_ifs <;> omega), FS.lookup_set_self]
    have : (if ((X.length : Nat) : Int) = 0 then X.length else ((X.length : Nat) : Int).toNat)
        = X.length := by
      split_ifs <;> simp
    rw [this, writeAt_end]
  refine ⟨?_, ?_, ?_, hend fs C hC hsize, ?_⟩
  · rw [PutFile_create d p n B false fs hname (Or.inr ⟨rfl, C, hC⟩) hpar (by omega) (by omega)]
  · rw [PutFile_create d p n B false fs hname (Or.inr ⟨rfl, C, hC⟩) hpar (by omega) (by omega),
      FS.lookup_set_self]
    unfold writeAt
    by_cases hB : B = []
    · simp [hB]
    · simp [hB]
  · rw [PutFile_append d p n B C fs hname hC (by omega) (by rw [if_neg hn0]; omega)]
    rw [if_neg hn0, Int.toNat_ofNat, writeAt_inside C B n hnC]
  · apply hend _ B1 _ hsize1
    rw [PutFile_create d p 0 B1 false fs hname (Or.inr ⟨rfl, C, hC⟩) hpar (le_refl 0)
      (by omega), FS.lookup_set_self]
    simp [writeAt_nil_zero]

theorem PutFile_at_offset_witness :
    (srvDriver.PutFile "/hello.txt".toList (2 : Nat) ⟨[90, 90], none⟩ false srvHello).1
      = (((([90, 90] : List Byte).length : Nat) : Int), none) ∧
    (srvDriver.PutFile "/hello.txt".toList (2 : Nat) ⟨[90, 90], none⟩ false srvHello).2.lookup
        (srvDriver.realPath "/hello.txt".toList) =
      some (Node.file (if ([90, 90] : List Byte) = [] then []
        else List.replicate 2 (0 : Byte) ++ [90, 90])) ∧
    srvDriver.PutFile "/hello.txt".toList (2 : Nat) ⟨[90, 90], none⟩ true srvHello =
      ((((([90, 90] : List Byte).length : Nat) : Int), none),
        srvHello.set (srvDriver.realPath "/hello.txt".toList)
          (Node.file (([119, 111, 114, 108, 100] : List Byte).take 2 ++ [90, 90] ++
            ([119, 111, 114, 108, 100] : List Byte).drop (2 + ([90, 90] : List Byte).length)))) ∧
    (srvDriver.PutFile "/hello.txt".toList
        ((([119, 111, 114, 108, 100] : List Byte).length : Nat) : Int)
        ⟨[90, 90], none⟩ true srvHello).2.lookup (srvDriver.realPath "/hello.txt".toList) =
      some (Node.file ([119, 111, 114, 108, 100] ++ [90, 90])) ∧
    (srvDriver.PutFile "/hello.txt".toList ((([97, 98] : List Byte).length : Nat) : Int)
        ⟨[90, 90], none⟩ true
        (srvDriver.PutFile "/hello.txt".toList 0 ⟨[97, 98], none⟩ false srvHello).2).2.lookup
        (srvDriver.realPath "/hello.txt".toList) =
      some (Node.file ([97, 98] ++ [90, 90])) :=
  PutFile_at_offset srvDriver "/hello.txt".toList 2 [90, 90] [119, 111, 114, 108, 100] [97, 98]
    srvHello (by decide) (by decide) (by decide) (by decide) (by decide) (by decide) (by decide)

/-- C4 as stated fails: with `world` stored at `/hello.txt`, the non-append
`PutFile("/hello.txt", 2, "ZZ", false)` removes the file and creates it
anew before seeking, so the file ends as two zero bytes followed by `ZZ`,
not as `woZZd`; likewise `PutFile(p, 0, B1, false)` followed by
`PutFile(p, |B1|, B2, false)` leaves two zero bytes and `c`, not `abc`. -/
theorem PutFile_offset_drops_old_bytes :
    srvHello.lookup (srvDriver.realPath "/hello.txt".toList)
      = some (Node.file [119, 111, 114, 108, 100]) ∧
    (srvDriver.PutFile "/hello.txt".toList 2 ⟨[90, 90], none⟩ false srvHello).1 = (2, none) ∧
    (srvDriver.PutFile "/hello.txt".toList 2 ⟨[90, 90], none⟩ false srvHello).2.lookup
        (srvDriver.realPath "/hello.txt".toList) = some (Node.file [0, 0, 90, 90]) ∧
    (srvDriver.PutFile "/hello.txt".toList 2 ⟨[90, 90], none⟩ false srvHello).2.lookup
        (srvDriver.realPath "/hello.txt".toList) ≠ some (Node.file [119, 111, 90, 90, 100]) ∧
    (srvDriver.PutFile "/f".toList 2 ⟨[99], none⟩ false
        (srvDriver.PutFile "/f".toList 0 ⟨[97, 98], none⟩ false srvEmpty).2).2.lookup
        (srvDriver.realPath "/f".toList) = some (Node.file [0, 0, 99]) := by
  decide

/-- C5 (amended): append law. For a host path the host accepts as a name
and `|C| + |B1| + |B2|` within the host's maximum file size: if `p` is
missing and its parent directory exists (take `C = []`), or `p` is a
regular file holding `C`, then `PutFile(p, 0, B1, true)` followed by
`PutFile(p, 0, B2, true)` return `(|B1|, nil)` and `(|B2|, nil)` and leave
`C ++ B1 ++ B2` at `p`. -/
theorem PutFile_append_law (d : fd.Driver) (p : List Char) (B1 B2 C : List Byte) (fs : FS)
    (hname : nameError (d.realPath p) = none)
    (h : (fs.lookup (d.realPath p) = none ∧
          fs.lookup (parentOf (d.realPath p)) = some Node.dir ∧ C = []) ∨
         fs.lookup (d.realPath p) = some (Node.file C))
    (hsize : C.length + B1.length + B2.length ≤ maxFileSize) :
    (d.PutFile p 0 ⟨B1, none⟩ true fs).1 = ((B1.length : Int), none) ∧
    (d.PutFile p 0 ⟨B2, none⟩ true (d.PutFile p 0 ⟨B1, none⟩ true fs).2).1
      = ((B2.length : Int), none) ∧
    (d.PutFile p 0 ⟨B2, none⟩ true (d.PutFile p 0 ⟨B1, none⟩ true fs).2).2.lookup (d.realPath p)
      = some (Node.file (C ++ B1 ++ B2)) := by
  have second : ∀ (fs1 : FS) (X : List Byte), fs1.lookup (d.realPath p) = some (Node.file X) →
      X.length + B2.length ≤ maxFileSize →
      d.PutFile p 0 ⟨B2, none⟩ true fs1 =
        (((B2.length : Int), none), fs1.set (d.realPath p) (Node.file (X ++ B2))) := by
    intro fs1 X hX hfit
    rw [PutFile_append d p 0 B2 X fs1 hname hX (le_refl 0) (by simp only [if_true]; omega)]
    simp [writeAt_end]
  rcases h with ⟨hnone, hpar, hC⟩ | hC
  · subst hC
    simp only [List.length_nil, Nat.zero_add] at hsize
    rw [PutFile_create d p 0 B1 true fs hname (Or.inl hnone) hpar (le_refl 0) (by omega)]
    simp only [Int.toNat_zero, writeAt_nil_zero]
    rw [second _ B1 (FS.lookup_set_self _ _ _) hsize]
    exact ⟨trivial, rfl, by simpa using FS.lookup_set_self _ _ _⟩
  · have first : d.PutFile p 0 ⟨B1, none⟩ true fs =
        (((B1.length : Int), none), fs.set (d.realPath p) (Node.file (C ++ B1))) := by
      rw [PutFile_append d p 0 B1 C fs hname hC (le_refl 0) (by simp only [if_true]; omega)]
      simp [writeAt_end]
    rw [first, second _ (C ++ B1) (FS.lookup_set_self _ _ _)
      (by rw [List.length_append]; omega)]
    exact ⟨rfl, rfl, FS.lookup_set_self _ _ _⟩

theorem PutFile_append_law_witness :
    (srvDriver.PutFile "/log".toList 0 ⟨[102, 111, 111], none⟩ true srvEmpty).1
      = (((([102, 111, 111] : List Byte).length : Nat) : Int), none) ∧
    (srvDriver.PutFile "/log".toList 0 ⟨[98, 97, 114], none⟩ true
        (srvDriver.PutFile "/log".toList 0 ⟨[102, 111, 111], none⟩ true srvEmpty).2).1
      = (((([98, 97, 114] : List Byte).length : Nat) : Int), none) ∧
    (srvDriver.PutFile "/log".toList 0 ⟨[98, 97, 114], none⟩ true
        (srvDriver.PutFile "/log".toList 0 ⟨[102, 111, 111], none⟩ true srvEmpty).2).2.lookup
        (srvDriver.realPath "/log".toList)
      = some (Node.file (([] : List Byte) ++ [102, 111, 111] ++ [98, 97, 114])) :=
  PutFile_append_law srvDriver "/log".toList [102, 111, 111] [98, 97, 114] [] srvEmpty
    (by decide) (Or.inl ⟨by decide, by decide, rfl⟩) (by decide)

/-- C5 as stated fails: nothing exists at `/a/log` on a host without
`/srv/a`, yet the first `PutFile("/a/log", 0, B1, true)` returns
`(0, ENOENT)` and the second one too; no file is left. -/
theorem PutFile_append_missing_parent :
    srvEmpty.lookup (srvDriver.realPath "/a/log".toList) = none ∧
    (srvDriver.PutFile "/a/log".toList 0 ⟨[102, 111, 111], none⟩ true srvEmpty).1
      = (0, some Error.ENOENT) ∧
    (srvDriver.PutFile "/a/log".toList 0 ⟨[98, 97, 114], none⟩ true
        (srvDriver.PutFile "/a/log".toList 0 ⟨[102, 111, 111], none⟩ true srvEmpty).2).2.lookup
        (srvDriver.realPath "/a/log".toList) = none := by
  decide

/-- C10 (amended): on a host path that the host accepts as a name, at which
nothing exists and whose parent directory exists, `PutFile(p, n, data,
true)` with `n > 0` and `n + |data|` within the host's maximum file size
does not fail: the append flag is cleared because the target is missing, so
the call is `PutFile(p, n, data, false)`; it returns `(|data|, nil)` and
creates the file, holding `n` zero bytes followed by the data (empty when
the data is empty). -/
theorem PutFile_append_missing_creates (d : fd.Driver) (p : List Char) (n : Int)
    (B : List Byte) (fs : FS)
    (hname : nameError (d.realPath p) = none)
    (hnone : fs.lookup (d.realPath p) = none)
    (hpar : fs.lookup (parentOf (d.realPath p)) = some Node.dir) (hn : 0 < n)
    (hsize : n + (B.length : Int) ≤ (maxFileSize : Int)) :
    d.PutFile p n ⟨B, none⟩ true fs = d.PutFile p n ⟨B, none⟩ false fs ∧
    (d.PutFile p n ⟨B, none⟩ true fs).1 = ((B.length : Int), none) ∧
    (d.PutFile p n ⟨B, none⟩ true fs).2.lookup (d.realPath p) =
      some (Node.file (if B = [] then [] else List.replicate n.toNat (0 : Byte) ++ B)) := by
  rw [PutFile_create d p n B true fs hname (Or.inl hnone) hpar (le_of_lt hn) hsize,
    PutFile_create d p n B false fs hname (Or.inl hnone) hpar (le_of_lt hn) hsize]
  refine ⟨rfl, rfl, ?_⟩
  rw [FS.lookup_set_self]
  unfold writeAt
  by_cases hB : B = []
  · simp [hB]
  · simp [hB]

theorem PutFile_append_missing_creates_witness :
    srvDriver.PutFile "/new".toList 3 ⟨[9, 9], none⟩ true srvEmpty
      = srvDriver.PutFile "/new".toList 3 ⟨[9, 9], none⟩ false srvEmpty ∧
    (srvDriver.PutFile "/new".toList 3 ⟨[9, 9], none⟩ true srvEmpty).1
      = (((([9, 9] : List Byte).length : Nat) : Int), none) ∧
    (srvDriver.PutFile "/new".toList 3 ⟨[9, 9], none⟩ true srvEmpty).2.lookup
        (srvDriver.realPath "/new".toList) =
      some (Node.file (if ([9, 9] : List Byte) = [] then []
        else List.replicate (3 : Int).toNat (0 : Byte) ++ [9, 9])) :=
  PutFile_append_missing_creates srvDriver "/new".toList 3 [9, 9] srvEmpty
    (by decide) (by decide) (by decide) (by decide) (by decide)

/-- C10 as stated fails: nothing exists at `/new`, the offset is 3 and the
append flag is set, yet `PutFile` returns `(2, nil)` and the file exists
afterwards. -/
theorem PutFile_append_offset_on_missing_succeeds :
    srvEmpty.lookup (srvDriver.realPath "/new".toList) = none ∧
    (srvDriver.PutFile "/new".toList 3 ⟨[9, 9], none⟩ true srvEmpty).1 = (2, none) ∧
    (srvDriver.PutFile "/new".toList 3 ⟨[9, 9], none⟩ true srvEmpty).2.lookup
      (srvDriver.realPath "/new".toList) = some (Node.file [0, 0, 0, 9, 9]) := by
  decide

/-- What the host refuses, and `PutFile` with it: the empty host path
(`RootPath` empty, logical path `/`) is `ENOENT` at `os.Create`; a name with
a NUL byte fails `os.Lstat` with an error other than not-exist, so `PutFile`
returns its own error; an offset above the host's maximum file size fails at
`Seek`, after the file has been created empty. -/
theorem PutFile_host_refusals :
    (fd.Driver.realPath { RootPath := [], Perm := constPerm "test" "test" 0o777 } "/".toList = [] ∧
     fd.Driver.PutFile { RootPath := [], Perm := constPerm "test" "test" 0o777 } "/".toList 0
        ⟨[1], none⟩ false [(".".toList, Node.dir)] =
       ((0, some Error.ENOENT), [(".".toList, Node.dir)])) ∧
    srvDriver.PutFile ['/', 'a', Char.ofNat 0] 0 ⟨[1], none⟩ false srvEmpty =
      ((0, some (Error.New "Put File error")), srvEmpty) ∧
    (srvDriver.PutFile "/new".toList (2 ^ 62) ⟨[1], none⟩ true srvEmpty).1 =
      (0, some Error.EINVAL) ∧
    (srvDriver.PutFile "/new".toList (2 ^ 62) ⟨[1], none⟩ true srvEmpty).2.lookup
      "/srv/new".toList = some (Node.file []) := by
  decide

/-! ## Theorems: fd.Driver.MakeDir and DeleteDir -/

theorem dirPrefix_length_le (path : List Char) : (dirPrefix path).length ≤ path.length := by
  unfold dirPrefix
  rw [List.length_reverse]
  calc ((path.reverse.dropWhile (fun x => x = '/')).dropWhile (fun x => x ≠ '/')).length
      ≤ (path.reverse.dropWhile (fun x => x = '/')).length :=
        (List.dropWhile_sublist _).length_le
    _ ≤ path.reverse.length := (List.dropWhile_sublist _).length_le
    _ = path.length := List.length_reverse _

theorem parentOf_eq_dropLast (path : List Char) (h : 1 < (dirPrefix path).length) :
    parentOf path = (dirPrefix path).dropLast := by
  unfold parentOf
  by_cases hall : path ≠ [] ∧ path.all (fun x => x = '/') = true
  · exfalso
    have hdrop : path.reverse.dropWhile (fun x => decide (x = '/')) = [] := by
      rw [List.dropWhile_eq_nil_iff]
      intro x hx
      have := List.all_eq_true.1 hall.2 x (List.mem_reverse.1 hx)
      simpa using this
    have : dirPrefix path = [] := by
      unfold dirPrefix
      rw [hdrop]
      rfl
    rw [this] at h
    simp at h
  · rw [if_neg hall, if_pos h]

theorem Lstat_error_of_none (fs : FS) (rp : List Char) (hnone : fs.lookup rp = none) :
    ∃ e, Lstat fs rp = .error e := by
  unfold Lstat
  cases nameError rp with
  | some e => exact ⟨e, rfl⟩
  | none => exact ⟨missingErr fs rp, by simp [hnone]⟩

/-- `MkdirAll` fails on a path text that the host does not accept as a
name. -/
theorem MkdirAll_name_error (fs : FS) (rp : List Char) (e : Error)
    (h : nameError rp = some e) : ∀ fuel, ∃ e1, MkdirAll fs fuel rp = .error e1
  | 0 => ⟨Error.EINVAL, rfl⟩
  | fuel + 1 => by
    have hl : ∀ fs1 : FS, Lstat fs1 rp = .error e := by
      intro fs1
      simp [Lstat, h]
    have hm : ∀ fs1 : FS, Mkdir fs1 rp = .error e := by
      intro fs1
      simp [Mkdir, h]
    unfold MkdirAll
    simp only [hl]
    split
    · exact ⟨_, rfl⟩
    · simp only [hm, hl]
      exact ⟨_, rfl⟩

/-- `MkdirAll` on an acceptable, missing path whose parent is an existing
directory adds exactly that one directory. -/
theorem MkdirAll_fresh (fs : FS) (rp : List Char)
    (hname : nameError rp = none) (hnamePar : nameError (parentOf rp) = none)
    (hnone : fs.lookup rp = none) (hpar : fs.lookup (parentOf rp) = some Node.dir) :
    MkdirAll fs (rp.length + 1) rp = .ok (fs.set rp Node.dir) := by
  have hmk : Mkdir fs rp = .ok (fs.set rp Node.dir) := by
    simp [Mkdir, hname, hnone, hpar]
  unfold MkdirAll
  simp only [Lstat_missing fs rp hname hnone]
  by_cases hj : (dirPrefix rp).length > 1
  · have hlen : 1 < rp.length := lt_of_lt_of_le hj (dirPrefix_length_le rp)
    obtain ⟨m, hm⟩ : ∃ m, rp.length = m + 1 := ⟨rp.length - 1, by omega⟩
    rw [parentOf_eq_dropLast rp hj] at hpar hnamePar
    have hrec : MkdirAll fs (m + 1) (dirPrefix rp).dropLast = .ok fs := by
      unfold MkdirAll
      simp [Lstat, hnamePar, hpar]
    simp only [hj, if_true, hm, hrec, hmk]
  · simp only [hj, if_false, hmk]

/-- When `MkdirAll` succeeds on a missing path whose parent is an existing
directory, it has added exactly that one directory. -/
theorem MkdirAll_fresh_of_ok (fs fs1 : FS) (rp : List Char)
    (hnone : fs.lookup rp = none) (hpar : fs.lookup (parentOf rp) = some Node.dir)
    (h1 : MkdirAll fs (rp.length + 1) rp = .ok fs1) : fs1 = fs.set rp Node.dir := by
  cases hname : nameError rp with
  | some e =>
    obtain ⟨e1, he1⟩ := MkdirAll_name_error fs rp e hname (rp.length + 1)
    rw [he1] at h1
    cases h1
  | none =>
    cases hnamePar : nameError (parentOf rp) with
    | none =>
      rw [MkdirAll_fresh fs rp hname hnamePar hnone hpar] at h1
      injection h1 with h1
      exact h1.symm
    | some e =>
      exfalso
      have hmk : Mkdir fs rp = .ok (fs.set rp Node.dir) := by
        simp [Mkdir, hname, hnone, hpar]
      unfold MkdirAll at h1
      simp only [Lstat_missing fs rp hname hnone] at h1
      by_cases hj : (dirPrefix rp).length > 1
      · rw [parentOf_eq_dropLast rp hj] at hnamePar
        obtain ⟨e1, he1⟩ := MkdirAll_name_error fs _ e hnamePar rp.length
        simp only [hj, if_true, he1] at h1
        cases h1
      · -- the parent is `/` or `.`, which the host accepts
        have hp : parentOf rp = ['/'] ∨ parentOf rp = ['.'] := by
          unfold parentOf
          split_ifs <;> simp
        have hroot : nameError ['/'] = none := by decide
        have hdot : nameError ['.'] = none := by decide
        rcases hp with hp | hp
        · rw [hp, hroot] at hnamePar
          cases hnamePar
        · rw [hp, hdot] at hnamePar
          cases hnamePar

/-- C6 (amended): if nothing exists at `x` and the parent directory of `x`
exists, a successful `MakeDir(x)` followed by a successful `DeleteDir(x)`
leaves the host file system exactly as it was. -/
theorem MakeDir_DeleteDir_restores (d : fd.Driver) (x : List Char) (fs fs1 fs2 : FS)
    (hnone : fs.lookup (d.realPath x) = none)
    (hpar : fs.lookup (parentOf (d.realPath x)) = some Node.dir)
    (h1 : d.MakeDir x fs = .ok fs1) (h2 : d.DeleteDir x fs1 = .ok fs2) :
    fs2 = fs := by
  unfold fd.Driver.MakeDir at h1
  have hfs1 := MkdirAll_fresh_of_ok fs fs1 _ hnone hpar h1
  subst hfs1
  unfold fd.Driver.DeleteDir at h2
  have hl : (fs.set (d.realPath x) Node.dir).lookup (d.realPath x) = some Node.dir :=
    FS.lookup_set_self _ _ _
  cases hname : nameError (d.realPath x) with
  | some e =>
    simp [Lstat, hname] at h2
  | none =>
    simp only [Lstat, hname, hl, if_true, Remove] at h2
    by_cases hc : (fs.set (d.realPath x) Node.dir).hasChild (d.realPath x) = true
    · simp [hc] at h2
    · simp only [hc] at h2
      injection h2 with h2
      rw [← h2, FS.erase_set, FS.erase_eq_self fs _ hnone]

theorem MakeDir_DeleteDir_restores_witness :
    srvDriver.MakeDir "/src".toList srvEmpty =
      .ok [("/".toList, Node.dir), ("/srv".toList, Node.dir), ("/srv/src".toList, Node.dir)] ∧
    srvDriver.DeleteDir "/src".toList
        [("/".toList, Node.dir), ("/srv".toList, Node.dir), ("/srv/src".toList, Node.dir)] =
      .ok [("/".toList, Node.dir), ("/srv".toList, Node.dir)] ∧
    ([("/".toList, Node.dir), ("/srv".toList, Node.dir)] : FS) = srvEmpty :=
  ⟨rfl, rfl,
    MakeDir_DeleteDir_restores srvDriver "/src".toList srvEmpty
      [("/".toList, Node.dir), ("/srv".toList, Node.dir), ("/srv/src".toList, Node.dir)]
      [("/".toList, Node.dir), ("/srv".toList, Node.dir)]
      (by decide) (by decide) rfl rfl⟩

/-- C6 as stated fails in two ways. With `/srv/a` missing, `MakeDir("/a/b")`
creates `/srv/a` and `/srv/a/b`, `DeleteDir("/a/b")` removes only the
latter, and `/srv/a` is left behind. With `/srv` holding the empty
directory `old`, `MakeDir("/old")` succeeds without creating anything and
`DeleteDir("/old")` removes the directory that was there before. -/
theorem MakeDir_DeleteDir_changes_namespace :
    (srvDriver.MakeDir "/a/b".toList srvEmpty =
        .ok [("/".toList, Node.dir), ("/srv".toList, Node.dir), ("/srv/a".toList, Node.dir),
             ("/srv/a/b".toList, Node.dir)] ∧
     srvDriver.DeleteDir "/a/b".toList
        [("/".toList, Node.dir), ("/srv".toList, Node.dir), ("/srv/a".toList, Node.dir),
         ("/srv/a/b".toList, Node.dir)] =
        .ok [("/".toList, Node.dir), ("/srv".toList, Node.dir), ("/srv/a".toList, Node.dir)] ∧
     FS.lookup [("/".toList, Node.dir), ("/srv".toList, Node.dir), ("/srv/a".toList, Node.dir)]
        "/srv/a".toList ≠ srvEmpty.lookup "/srv/a".toList) ∧
    (srvDriver.MakeDir "/old".toList
        [("/".toList, Node.dir), ("/srv".toList, Node.dir), ("/srv/old".toList, Node.dir)] =
        .ok [("/".toList, Node.dir), ("/srv".toList, Node.dir), ("/srv/old".toList, Node.dir)] ∧
     srvDriver.DeleteDir "/old".toList
        [("/".toList, Node.dir), ("/srv".toList, Node.dir), ("/srv/old".toList, Node.dir)] =
        .ok [("/".toList, Node.dir), ("/srv".toList, Node.dir)] ∧
     FS.lookup [("/".toList, Node.dir), ("/srv".toList, Node.dir)] "/srv/old".toList ≠
       FS.lookup [("/".toList, Node.dir), ("/srv".toList, Node.dir), ("/srv/old".toList, Node.dir)]
         "/srv/old".toList) := by
  refine ⟨⟨rfl, rfl, by decide⟩, ⟨rfl, rfl, by decide⟩⟩

/-! ## Theorems: fd.Driver.ListDir -/

/-- C9 (the code at the failing input): with `RootPath = "."`, listing the
logical root `/` walks the host path `.`; for the walked directory itself
`filepath.Rel` gives `.` and `info.Name()` is `.` too, so the callback is
invoked on the listed directory, `SkipDir` is returned, and the children
`a` and `sub` are never reported. The same tree below `/srv` is listed as
the claim says: `a` and `sub`, once each. -/
theorem ListDir_dot_root_reports_itself :
    dotDriver.realPath "/".toList = ".".toList ∧
    dotTree.lookup (dotDriver.realPath "/".toList) = some Node.dir ∧
    dotTree.childNames (dotDriver.realPath "/".toList) = ["a".toList, "sub".toList] ∧
    dotDriver.ListDir "/".toList (fun _ => none) dotTree =
      (none, [{ info := { name := ".".toList, size := 0, isDir := true },
                mode := 0o777 ||| fd.ModeDir, owner := "test", group := "test" }]) ∧
    srvDriver.ListDir "/".toList (fun _ => none) srvTree =
      (none, [{ info := { name := "a".toList, size := 2, isDir := false },
                mode := 0o777, owner := "test", group := "test" },
              { info := { name := "sub".toList, size := 0, isDir := true },
                mode := 0o777 ||| fd.ModeDir, owner := "test", group := "test" }]) := by
  refine ⟨by decide, by decide, by decide, by rfl, by rfl⟩

/-! ## Theorems: filepath.Clean and fd.Driver.realPath -/

theorem dropWhile_notSep_length_le (l : List Char) :
    (l.dropWhile (fun x => x ≠ '/')).length ≤ l.length :=
  (List.dropWhile_sublist _).length_le

theorem cleanStep_length (r : Bool) (c : Char) (t out : List Char) (dd : Nat) :
    (cleanStep r c t out dd).1.length ≤ t.length := by
  unfold cleanStep
  by_cases h1 : c = '/'
  · simp only [h1, if_true]
    exact le_refl _
  · rw [if_neg h1]
    by_cases h2 : c = '.' ∧ (t = [] ∨ t.head? = some '/')
    · rw [if_pos h2]
    · rw [if_neg h2]
      by_cases h3 : c = '.' ∧ t.head? = some '.' ∧ (t.tail = [] ∨ t.tail.head? = some '/')
      · rw [if_pos h3]
        split_ifs <;> first | simp | (cases out <;> simp)
      · rw [if_neg h3]
        have hc : (c :: t).dropWhile (fun x => x ≠ '/') = t.dropWhile (fun x => x ≠ '/') := by
          rw [List.dropWhile_cons_of_pos (by simpa using h1)]
        simp only [hc]
        exact dropWhile_notSep_length_le t

theorem cleanLoop_fuel_aux (r : Bool) : ∀ (n fuel1 fuel2 : Nat) (path out : List Char) (dd : Nat),
    path.length ≤ n → n ≤ fuel1 → n ≤ fuel2 →
    cleanLoop r fuel1 path out dd = cleanLoop r fuel2 path out dd := by
  intro n
  induction n with
  | zero =>
    intro fuel1 fuel2 path out dd hp _ _
    have : path = [] := List.length_eq_zero.1 (Nat.le_zero.1 hp)
    subst this
    cases fuel1 <;> cases fuel2 <;> rfl
  | succ n ih =>
    intro fuel1 fuel2 path out dd hp h1 h2
    cases path with
    | nil => cases fuel1 <;> cases fuel2 <;> rfl
    | cons c t =>
      obtain ⟨f1, rfl⟩ : ∃ f, fuel1 = f + 1 := ⟨fuel1 - 1, by omega⟩
      obtain ⟨f2, rfl⟩ : ∃ f, fuel2 = f + 1 := ⟨fuel2 - 1, by omega⟩
      simp only [cleanLoop]
      apply ih
      · have := cleanStep_length r c t out dd
        simp only [List.length_cons] at hp
        omega
      · omega
      · omega

theorem cleanLoop_eq_run (r : Bool) (fuel : Nat) (path out : List Char) (dd : Nat)
    (h : path.length ≤ fuel) : cleanLoop r fuel path out dd = cleanRun r path out dd :=
  cleanLoop_fuel_aux r path.length fuel path.length path out dd (le_refl _) h (le_refl _)

theorem cleanRun_nil (r : Bool) (out : List Char) (dd : Nat) : cleanRun r [] out dd = (out, dd) :=
  rfl

theorem cleanRun_cons (r : Bool) (c : Char) (t out : List Char) (dd : Nat) :
    cleanRun r (c :: t) out dd =
      cleanRun r (cleanStep r c t out dd).1 (cleanStep r c t out dd).2.1
        (cleanStep r c t out dd).2.2 := by
  unfold cleanRun
  simp only [List.length_cons, cleanLoop]
  exact cleanLoop_eq_run r _ _ _ _ (cleanStep_length r c t out dd)

theorem takeWhile_notSep_append (xs b : List Char) :
    (xs ++ '/' :: b).takeWhile (fun x => x ≠ '/') = xs.takeWhile (fun x => x ≠ '/') := by
  induction xs with
  | nil => simp
  | cons x xs ih =>
    by_cases hx : x = '/'
    · simp [hx]
    · simpa [List.takeWhile_cons, hx] using ih

theorem dropWhile_notSep_append (xs b : List Char) :
    (xs ++ '/' :: b).dropWhile (fun x => x ≠ '/') =
      xs.dropWhile (fun x => x ≠ '/') ++ '/' :: b := by
  induction xs with
  | nil => simp
  | cons x xs ih =>
    by_cases hx : x = '/'
    · simp [hx]
    · simpa [List.dropWhile_cons, hx] using ih

theorem head?_append_sep (t b : List Char) (x : Char) :
    (t ++ '/' :: b).head? = some x ↔ (t = [] ∧ x = '/') ∨ t.head? = some x := by
  cases t with
  | nil => simp [eq_comm]
  | cons y t => simp

/-- One iteration does the same whether or not `/ b` follows the text. -/
theorem cleanStep_append (r : Bool) (c : Char) (t b out : List Char) (dd : Nat) :
    cleanStep r c (t ++ '/' :: b) out dd =
      ((cleanStep r c t out dd).1 ++ '/' :: b, (cleanStep r c t out dd).2.1,
        (cleanStep r c t out dd).2.2) := by
  have hdot : (t ++ '/' :: b = [] ∨ (t ++ '/' :: b).head? = some '/') ↔
      (t = [] ∨ t.head? = some '/') := by
    rw [head?_append_sep]
    simp
  have hdd1 : (t ++ '/' :: b).head? = some '.' ↔ t.head? = some '.' := by
    rw [head?_append_sep]
    simp
  have htail : t.head? = some '.' → (t ++ '/' :: b).tail = t.tail ++ '/' :: b := by
    intro h
    cases t with
    | nil => simp at h
    | cons y t => simp
  have hdd2 : t.head? = some '.' →
      (((t ++ '/' :: b).tail = [] ∨ (t ++ '/' :: b).tail.head? = some '/') ↔
        (t.tail = [] ∨ t.tail.head? = some '/')) := by
    intro h
    rw [htail h, head?_append_sep]
    simp
  unfold cleanStep
  by_cases h1 : c = '/'
  · simp only [h1, if_true]
  · simp only [h1, if_false]
    by_cases h2 : c = '.' ∧ (t = [] ∨ t.head? = some '/')
    · have h2' : c = '.' ∧ (t ++ '/' :: b = [] ∨ (t ++ '/' :: b).head? = some '/') :=
        ⟨h2.1, hdot.2 h2.2⟩
      rw [if_pos h2, if_pos h2']
    · have h2' : ¬ (c = '.' ∧ (t ++ '/' :: b = [] ∨ (t ++ '/' :: b).head? = some '/')) :=
        fun h => h2 ⟨h.1, hdot.1 h.2⟩
      rw [if_neg h2, if_neg h2']
      by_cases h3 : c = '.' ∧ t.head? = some '.' ∧ (t.tail = [] ∨ t.tail.head? = some '/')
      · have h3' : c = '.' ∧ (t ++ '/' :: b).head? = some '.' ∧
            ((t ++ '/' :: b).tail = [] ∨ (t ++ '/' :: b).tail.head? = some '/') :=
          ⟨h3.1, hdd1.2 h3.2.1, (hdd2 h3.2.1).2 h3.2.2⟩
        rw [if_pos h3, if_pos h3', htail h3.2.1]
        split_ifs <;> first | rfl | (cases out <;> rfl)
      · have h3' : ¬ (c = '.' ∧ (t ++ '/' :: b).head? = some '.' ∧
            ((t ++ '/' :: b).tail = [] ∨ (t ++ '/' :: b).tail.head? = some '/')) :=
          fun h => h3 ⟨h.1, hdd1.1 h.2.1, (hdd2 (hdd1.1 h.2.1)).1 h.2.2⟩
        rw [if_neg h3, if_neg h3']
        have e1 : (c :: (t ++ '/' :: b)) = (c :: t) ++ '/' :: b := rfl
        simp only [e1, takeWhile_notSep_append, dropWhile_notSep_append]

/-- Cleaning `a / b` is cleaning `a` and then going on with `/ b`. -/
theorem cleanRun_append (r : Bool) : ∀ (n : Nat) (a b out : List Char) (dd : Nat),
    a.length ≤ n →
    cleanRun r (a ++ '/' :: b) out dd =
      cleanRun r ('/' :: b) (cleanRun r a out dd).1 (cleanRun r a out dd).2 := by
  intro n
  induction n with
  | zero =>
    intro a b out dd ha
    have : a = [] := List.length_eq_zero.1 (Nat.le_zero.1 ha)
    subst this
    rfl
  | succ n ih =>
    intro a b out dd ha
    cases a with
    | nil => rfl
    | cons c t =>
      have e1 : (c :: t) ++ '/' :: b = c :: (t ++ '/' :: b) := rfl
      rw [e1, cleanRun_cons, cleanStep_append, cleanRun_cons r c t]
      apply ih
      have := cleanStep_length r c t out dd
      simp only [List.length_cons] at ha
      omega

theorem Split_sep_cons (t : List Char) : Split ('/' :: t) = [] :: Split t := by
  simp [Split, List.splitOn]

theorem notSep_of_mem_takeWhile (l : List Char) :
    ∀ x ∈ l.takeWhile (fun x => x ≠ '/'), ¬ ((x == '/') = true) := by
  intro x hx
  have := List.mem_takeWhile_imp hx
  simpa using this

theorem dropWhile_notSep_cases (l : List Char) :
    l.dropWhile (fun x => x ≠ '/') = [] ∨
      ∃ t, l.dropWhile (fun x => x ≠ '/') = '/' :: t := by
  induction l with
  | nil => exact Or.inl rfl
  | cons x xs ih =>
    by_cases hx : x = '/'
    · right
      exact ⟨xs, by simp [hx]⟩
    · rw [List.dropWhile_cons_of_pos (by simpa using hx)]
      exact ih

/-- Splitting a text at its first separator: the first segment is the text
up to it, the other segments are those of what follows. -/
theorem Split_decompose (q : List Char) :
    ∃ T, Split (q.dropWhile (fun x => x ≠ '/')) = [] :: T ∧
      Split q = q.takeWhile (fun x => x ≠ '/') :: T := by
  have hq : q = q.takeWhile (fun x => x ≠ '/') ++ q.dropWhile (fun x => x ≠ '/') :=
    (List.takeWhile_append_dropWhile _ q).symm
  rcases dropWhile_notSep_cases q with h | ⟨t, h⟩
  · refine ⟨[], by rw [h]; rfl, ?_⟩
    rw [h, List.append_nil] at hq
    conv_lhs => rw [hq]
    exact List.splitOnP_eq_single _ _ (notSep_of_mem_takeWhile q)
  · refine ⟨Split t, by rw [h, Split_sep_cons], ?_⟩
    rw [h] at hq
    conv_lhs => rw [hq]
    exact List.splitOnP_first _ _ (notSep_of_mem_takeWhile q) '/' (by simp) t

theorem takeWhile_notSep_eq_nil (t : List Char) :
    t.takeWhile (fun x => x ≠ '/') = [] ↔ (t = [] ∨ t.head? = some '/') := by
  cases t with
  | nil => simp
  | cons y t =>
    by_cases hy : y = '/'
    · simp [hy]
    · simp [List.takeWhile_cons, hy]

theorem elem_eq_dot (c : Char) (t : List Char) (hc : c ≠ '/') :
    (c :: t).takeWhile (fun x => x ≠ '/') = ['.'] ↔ (c = '.' ∧ (t = [] ∨ t.head? = some '/')) := by
  rw [List.takeWhile_cons_of_pos (by simpa using hc)]
  simp only [List.cons.injEq]
  rw [takeWhile_notSep_eq_nil]

theorem elem_eq_dotdot (c : Char) (t : List Char) (hc : c ≠ '/') :
    (c :: t).takeWhile (fun x => x ≠ '/') = ['.', '.'] ↔
      (c = '.' ∧ t.head? = some '.' ∧ (t.tail = [] ∨ t.tail.head? = some '/')) := by
  rw [List.takeWhile_cons_of_pos (by simpa using hc)]
  simp only [List.cons.injEq]
  cases t with
  | nil => simp
  | cons y t =>
    by_cases hy : y = '/'
    · subst hy
      simp
    · rw [List.takeWhile_cons_of_pos (by simpa using hy)]
      simp only [List.cons.injEq, List.head?_cons, Option.some.injEq, List.tail_cons]
      rw [takeWhile_notSep_eq_nil]

theorem ordinary_nil : ordinary [] = false := by decide

theorem pushNames_append (r : Bool) (out : List Char) (A B : List (List Char)) :
    pushNames r out (A ++ B) = pushNames r (pushNames r out A) B := by
  unfold pushNames
  rw [List.foldl_append]

/-- On a text with no `..` segment the loop of `Clean` only ever copies
elements: the buffer ends as the old buffer with the ordinary segments
pushed in order, and `dotdot` is unchanged. -/
theorem cleanRun_no_dotdot (r : Bool) : ∀ (n : Nat) (q out : List Char) (dd : Nat),
    q.length ≤ n → ['.', '.'] ∉ Split q →
    cleanRun r q out dd = (pushNames r out ((Split q).filter ordinary), dd) := by
  intro n
  induction n with
  | zero =>
    intro q out dd hq _
    have : q = [] := List.length_eq_zero.1 (Nat.le_zero.1 hq)
    subst this
    rfl
  | succ n ih =>
    intro q out dd hq hdd
    cases q with
    | nil => rfl
    | cons c t =>
      simp only [List.length_cons] at hq
      rw [cleanRun_cons]
      by_cases h1 : c = '/'
      · subst h1
        rw [Split_sep_cons] at hdd ⊢
        have hstep : cleanStep r '/' t out dd = (t, out, dd) := by simp [cleanStep]
        rw [hstep, List.filter_cons_of_neg (by simp [ordinary_nil])]
        exact ih t out dd (by omega) (fun h => hdd (List.mem_cons_of_mem _ h))
      · obtain ⟨T, hrest, hsplit⟩ := Split_decompose (c :: t)
        have hrestlen : ((c :: t).dropWhile (fun x => x ≠ '/')).length ≤ n := by
          rw [List.dropWhile_cons_of_pos (by simpa using h1)]
          exact le_trans (dropWhile_notSep_length_le t) (by omega)
        have hnodd : ¬ (c = '.' ∧ t.head? = some '.' ∧ (t.tail = [] ∨ t.tail.head? = some '/')) := by
          intro h
          apply hdd
          rw [hsplit, (elem_eq_dotdot c t h1).2 h]
          exact List.mem_cons_self _ _
        have hdd' : ['.', '.'] ∉ Split ((c :: t).dropWhile (fun x => x ≠ '/')) := by
          intro h
          rw [hrest] at h
          rcases List.mem_cons.1 h with h | h
          · simp at h
          · apply hdd
            rw [hsplit]
            exact List.mem_cons_of_mem _ h
        have hnames : (Split ((c :: t).dropWhile (fun x => x ≠ '/'))).filter ordinary =
            T.filter ordinary := by
          rw [hrest, List.filter_cons_of_neg (by simp [ordinary_nil])]
        by_cases h2 : c = '.' ∧ (t = [] ∨ t.head? = some '/')
        · have hstep : cleanStep r c t out dd = (t, out, dd) := by
            unfold cleanStep
            rw [if_neg h1, if_pos h2]
          have hdrop : (c :: t).dropWhile (fun x => x ≠ '/') = t := by
            rw [List.dropWhile_cons_of_pos (by simpa using h1)]
            rcases h2.2 with h | h
            · subst h; rfl
            · cases t with
              | nil => rfl
              | cons y t =>
                simp only [List.head?_cons, Option.some.injEq] at h
                subst h
                simp
          rw [hstep, hsplit, (elem_eq_dot c t h1).2 h2,
            List.filter_cons_of_neg (by decide), ← hnames, hdrop]
          rw [hdrop] at hdd' hrestlen
          exact ih t out dd hrestlen hdd'
        · have hstep : cleanStep r c t out dd =
              ((c :: t).dropWhile (fun x => x ≠ '/'),
               pushName r out ((c :: t).takeWhile (fun x => x ≠ '/')), dd) := by
            unfold cleanStep pushName
            rw [if_neg h1, if_neg h2, if_neg hnodd]
          have hord : ordinary ((c :: t).takeWhile (fun x => x ≠ '/')) = true := by
            unfold ordinary
            rw [decide_eq_true_eq]
            refine ⟨?_, ?_, ?_⟩
            · rw [List.takeWhile_cons_of_pos (by simpa using h1)]
              exact List.cons_ne_nil _ _
            · exact fun h => h2 ((elem_eq_dot c t h1).1 h)
            · exact fun h => hnodd ((elem_eq_dotdot c t h1).1 h)
          rw [hstep, hsplit, List.filter_cons_of_pos hord, ← hnames]
          rw [ih _ _ dd hrestlen hdd']
          rfl

/-! ### What the `..` case of `Clean` can remove -/

theorem cleanBacktrack_suffix (dd : Nat) : ∀ (o : List Char) (last : Char),
    cleanBacktrack dd o last <:+ o
  | [], _ => by simp [cleanBacktrack]
  | c :: rest, last => by
    unfold cleanBacktrack
    split_ifs with h
    · exact (cleanBacktrack_suffix dd rest c).trans (List.suffix_cons c rest)
    · exact List.suffix_refl _

theorem cleanBacktrack_length (dd : Nat) : ∀ (o : List Char) (last : Char),
    dd ≤ o.length → dd ≤ (cleanBacktrack dd o last).length
  | [], _, h => by simpa [cleanBacktrack] using h
  | c :: rest, last, h => by
    unfold cleanBacktrack
    split_ifs with h1
    · exact cleanBacktrack_length dd rest c (by
        have := h1.1
        simp only [List.length_cons] at this
        omega)
    · exact h

/-- Why the backward scan stopped: at `dotdot`, or just after a separator. -/
theorem cleanBacktrack_stop (dd : Nat) : ∀ (o : List Char) (last : Char),
    (cleanBacktrack dd o last).length ≤ dd ∨
      ∃ junk, last :: o = junk ++ '/' :: cleanBacktrack dd o last
  | [], _ => by simp [cleanBacktrack]
  | c :: rest, last => by
    unfold cleanBacktrack
    split_ifs with h1
    · rcases cleanBacktrack_stop dd rest c with h | ⟨junk, h⟩
      · exact Or.inl h
      · right
        refine ⟨last :: junk, ?_⟩
        rw [List.cons_append, ← h]
    · by_cases hlen : (c :: rest).length > dd
      · right
        have hl : last = '/' := by
          by_contra hne
          exact h1 ⟨hlen, hne⟩
        exact ⟨[], by rw [hl]; rfl⟩
      · left
        omega

/-! ### The buffer of a rooted path always begins with the root slash -/

theorem cleanStep_rooted (c : Char) (t out : List Char)
    (h : ∃ pre, out = pre ++ ['/']) :
    (cleanStep true c t out 1).2.2 = 1 ∧ ∃ pre, (cleanStep true c t out 1).2.1 = pre ++ ['/'] := by
  obtain ⟨pre, hpre⟩ := h
  unfold cleanStep
  by_cases h1 : c = '/'
  · rw [if_pos h1]
    exact ⟨rfl, pre, hpre⟩
  · rw [if_neg h1]
    by_cases h2 : c = '.' ∧ (t = [] ∨ t.head? = some '/')
    · rw [if_pos h2]
      exact ⟨rfl, pre, hpre⟩
    · rw [if_neg h2]
      by_cases h3 : c = '.' ∧ t.head? = some '.' ∧ (t.tail = [] ∨ t.tail.head? = some '/')
      · rw [if_pos h3]
        by_cases h4 : out.length > 1
        · rw [if_pos h4]
          cases out with
          | nil => simp at h4
          | cons last rest =>
            refine ⟨rfl, ?_⟩
            simp only
            have hlen : 1 ≤ rest.length := by
              simp only [List.length_cons] at h4
              omega
            have hsuf := cleanBacktrack_suffix 1 rest last
            have hpos := cleanBacktrack_length 1 rest last hlen
            -- a non-empty suffix of a list ending in the slash ends in the slash
            have hrest : ∃ pre1, rest = pre1 ++ ['/'] := by
              cases pre with
              | nil => simp at hpre; rw [hpre.2] at hlen; simp at hlen
              | cons x pre1 =>
                simp only [List.cons_append, List.cons.injEq] at hpre
                exact ⟨pre1, hpre.2⟩
            obtain ⟨pre1, hpre1⟩ := hrest
            obtain ⟨front, hfront⟩ := hsuf
            generalize cleanBacktrack 1 rest last = P at hpos hfront
            rcases List.eq_nil_or_concat P with hP | ⟨P1, z, hP⟩
            · rw [hP] at hpos; simp at hpos
            · rw [List.concat_eq_append] at hP
              rw [hP, hpre1, ← List.append_assoc] at hfront
              have := List.append_inj_right' hfront rfl
              simp only [List.cons.injEq, and_true] at this
              exact ⟨P1, by rw [hP, this]⟩
        · rw [if_neg h4, if_neg (by decide)]
          exact ⟨rfl, pre, hpre⟩
      · rw [if_neg h3]
        refine ⟨rfl, ?_⟩
        by_cases h5 : (true = true ∧ out.length ≠ 1) ∨ (true = false ∧ out.length ≠ 0)
        · refine ⟨((c :: t).takeWhile (fun x => x ≠ '/')).reverse ++ '/' :: pre, ?_⟩
          show _ ++ (if _ then _ else _) = _
          rw [if_pos h5, hpre]
          simp
        · refine ⟨((c :: t).takeWhile (fun x => x ≠ '/')).reverse ++ pre, ?_⟩
          show _ ++ (if _ then _ else _) = _
          rw [if_neg h5, hpre]
          simp

theorem cleanRun_rooted : ∀ (n : Nat) (a out : List Char), a.length ≤ n →
    (∃ pre, out = pre ++ ['/']) →
    (cleanRun true a out 1).2 = 1 ∧ ∃ pre, (cleanRun true a out 1).1 = pre ++ ['/'] := by
  intro n
  induction n with
  | zero =>
    intro a out ha h
    have : a = [] := List.length_eq_zero.1 (Nat.le_zero.1 ha)
    subst this
    exact ⟨rfl, h⟩
  | succ n ih =>
    intro a out ha h
    cases a with
    | nil => exact ⟨rfl, h⟩
    | cons c t =>
      rw [cleanRun_cons]
      have hs := cleanStep_rooted c t out h
      rw [hs.1]
      apply ih _ _ _ hs.2
      have := cleanStep_length true c t out 1
      simp only [List.length_cons] at ha
      omega

/-! ### The buffer of a relative path never begins with `/` or with a `.` segment -/

theorem firstSegmentOK_append_sep (f x : List Char) (hf : f ≠ []) (h : firstSegmentOK f) :
    firstSegmentOK (f ++ '/' :: x) := by
  rcases h with h | h
  · exact absurd h hf
  · right
    rw [takeWhile_notSep_append]
    exact h

theorem firstSegmentOK_of_append_sep (P x : List Char) (h : firstSegmentOK (P ++ '/' :: x)) :
    firstSegmentOK P := by
  rcases h with h | h
  · simp at h
  · right
    rw [takeWhile_notSep_append] at h
    exact h

theorem firstSegmentOK_prefix (f P : List Char) (h : firstSegmentOK f) (hP : P <+: f)
    (hlen : 2 ≤ P.length) : firstSegmentOK P := by
  obtain ⟨rest, hrest⟩ := hP
  match P, hlen with
  | x :: y :: P1, _ =>
    rcases h with h | h
    · rw [h] at hrest; simp at hrest
    · right
      rw [← hrest] at h
      by_cases hx : x = '/'
      · subst hx
        simp at h
      · rw [List.takeWhile_cons_of_pos (by simpa using hx)]
        refine ⟨List.cons_ne_nil _ _, ?_⟩
        intro hdot
        simp only [List.cons.injEq] at hdot
        apply h.2
        simp only [List.cons_append]
        rw [List.takeWhile_cons_of_pos (by simpa using hx)]
        simp only [List.cons.injEq]
        refine ⟨hdot.1, ?_⟩
        by_cases hy : y = '/'
        · subst hy
          simp
        · rw [List.takeWhile_cons_of_pos (by simpa using hy)] at hdot
          simp at hdot

theorem firstSegmentOK_elem (c : Char) (t : List Char) (h1 : c ≠ '/')
    (h2 : ¬ (c = '.' ∧ (t = [] ∨ t.head? = some '/'))) :
    firstSegmentOK ((c :: t).takeWhile (fun x => x ≠ '/')) := by
  right
  rw [List.takeWhile_idem]
  refine ⟨?_, fun h => h2 ((elem_eq_dot c t h1).1 h)⟩
  rw [List.takeWhile_cons_of_pos (by simpa using h1)]
  exact List.cons_ne_nil _ _

theorem cleanStep_relative (c : Char) (t out : List Char) (dd : Nat)
    (hout : firstSegmentOK out.reverse) (hdd : dd = 0 ∨ 2 ≤ dd) :
    firstSegmentOK (cleanStep false c t out dd).2.1.reverse ∧
      ((cleanStep false c t out dd).2.2 = 0 ∨ 2 ≤ (cleanStep false c t out dd).2.2) := by
  unfold cleanStep
  by_cases h1 : c = '/'
  · rw [if_pos h1]
    exact ⟨hout, hdd⟩
  · rw [if_neg h1]
    by_cases h2 : c = '.' ∧ (t = [] ∨ t.head? = some '/')
    · rw [if_pos h2]
      exact ⟨hout, hdd⟩
    · rw [if_neg h2]
      by_cases h3 : c = '.' ∧ t.head? = some '.' ∧ (t.tail = [] ∨ t.tail.head? = some '/')
      · rw [if_pos h3]
        by_cases h4 : out.length > dd
        · rw [if_pos h4]
          cases out with
          | nil => simp at h4
          | cons last rest =>
            refine ⟨?_, hdd⟩
            simp only
            have hlen : dd ≤ rest.length := by
              simp only [List.length_cons] at h4
              omega
            have hsuf := cleanBacktrack_suffix dd rest last
            have hpos := cleanBacktrack_length dd rest last hlen
            have hstop := cleanBacktrack_stop dd rest last
            generalize cleanBacktrack dd rest last = P at hsuf hpos hstop
            rcases hstop with hle | ⟨junk, hjunk⟩
            · rcases hdd with h0 | h2'
              · have : P = [] := List.length_eq_zero.1 (by omega)
                rw [this]
                exact Or.inl rfl
              · obtain ⟨front, hfront⟩ := hsuf
                apply firstSegmentOK_prefix _ _ hout
                · refine ⟨front.reverse ++ [last], ?_⟩
                  rw [← hfront]
                  simp
                · rw [List.length_reverse]
                  omega
            · rw [hjunk] at hout
              apply firstSegmentOK_of_append_sep _ junk.reverse
              simpa using hout
        · rw [if_neg h4, if_pos rfl]
          refine ⟨?_, Or.inr (by simp)⟩
          simp only
          by_cases h5 : out.length > 0
          · rw [if_pos h5]
            have hne : out.reverse ≠ [] := by
              intro h
              rw [List.reverse_eq_nil_iff] at h
              rw [h] at h5
              simp at h5
            have := firstSegmentOK_append_sep out.reverse ['.', '.'] hne hout
            simpa using this
          · rw [if_neg h5]
            have : out = [] := List.length_eq_zero.1 (by omega)
            subst this
            right
            decide
      · rw [if_neg h3]
        refine ⟨?_, hdd⟩
        show firstSegmentOK (List.reverse (_ ++ ite _ _ _))
        by_cases h5 : out.length ≠ 0
        · rw [if_pos (Or.inr ⟨rfl, h5⟩)]
          have hne : out.reverse ≠ [] := by
            intro h
            rw [List.reverse_eq_nil_iff] at h
            rw [h] at h5
            simp at h5
          have := firstSegmentOK_append_sep out.reverse
            ((c :: t).takeWhile (fun x => x ≠ '/')) hne hout
          simpa using this
        · have hcond : ¬ ((false = true ∧ out.length ≠ 1) ∨ (false = false ∧ out.length ≠ 0)) := by
            rintro (h | h)
            · exact Bool.false_ne_true h.1
            · exact h5 h.2
          rw [if_neg hcond]
          have : out = [] := List.length_eq_zero.1 (by omega)
          subst this
          simpa using firstSegmentOK_elem c t h1 h2

theorem cleanRun_relative : ∀ (n : Nat) (a out : List Char) (dd : Nat), a.length ≤ n →
    firstSegmentOK out.reverse → (dd = 0 ∨ 2 ≤ dd) →
    firstSegmentOK (cleanRun false a out dd).1.reverse := by
  intro n
  induction n with
  | zero =>
    intro a out dd ha h _
    have : a = [] := List.length_eq_zero.1 (Nat.le_zero.1 ha)
    subst this
    exact h
  | succ n ih =>
    intro a out dd ha h hdd
    cases a with
    | nil => exact h
    | cons c t =>
      rw [cleanRun_cons]
      have hs := cleanStep_relative c t out dd h hdd
      apply ih _ _ _ _ hs.1 hs.2
      have := cleanStep_length false c t out dd
      simp only [List.length_cons] at ha
      omega

/-! ### The text that `Clean` returns -/

theorem stringsJoin_cons_cons (a b : List Char) (l : List (List Char)) :
    stringsJoin (a :: b :: l) = a ++ '/' :: stringsJoin (b :: l) := by
  simp [stringsJoin, List.intercalate]

theorem stringsJoin_Split (p : List Char) : stringsJoin (Split p) = p :=
  List.intercalate_splitOn p '/'

theorem stringsJoin_eq_flatten : ∀ (ns : List (List Char)) (n : List Char),
    stringsJoin (n :: ns) = n ++ (ns.map (fun s => '/' :: s)).flatten
  | [], n => by simp [stringsJoin, List.intercalate]
  | m :: ns, n => by
    rw [stringsJoin_cons_cons, stringsJoin_eq_flatten ns m]
    simp

theorem pushNames_sep (r : Bool) : ∀ (names : List (List Char)) (out : List Char),
    ((r = true ∧ 2 ≤ out.length) ∨ (r = false ∧ 1 ≤ out.length)) →
    (pushNames r out names).reverse = out.reverse ++ (names.map (fun s => '/' :: s)).flatten
  | [], out, _ => by simp [pushNames]
  | n :: ns, out, h => by
    have hcond : (r = true ∧ out.length ≠ 1) ∨ (r = false ∧ out.length ≠ 0) := by
      rcases h with ⟨h1, h2⟩ | ⟨h1, h2⟩
      · exact Or.inl ⟨h1, by omega⟩
      · exact Or.inr ⟨h1, by omega⟩
    have hpush : pushName r out n = n.reverse ++ '/' :: out := by
      unfold pushName
      rw [if_pos hcond]
    have hnext : pushNames r out (n :: ns) = pushNames r (n.reverse ++ '/' :: out) ns := by
      unfold pushNames
      rw [List.foldl_cons, hpush]
    rw [hnext, pushNames_sep r ns]
    · simp
    · rcases h with ⟨h1, h2⟩ | ⟨h1, h2⟩
      · exact Or.inl ⟨h1, by simp only [List.length_append, List.length_cons]; omega⟩
      · exact Or.inr ⟨h1, by simp only [List.length_append, List.length_cons]; omega⟩

theorem pushNames_length_ge (r : Bool) : ∀ (names : List (List Char)) (out : List Char),
    out.length ≤ (pushNames r out names).length
  | [], out => by simp [pushNames]
  | n :: ns, out => by
    have hnext : pushNames r out (n :: ns) = pushNames r (pushName r out n) ns := by
      unfold pushNames
      rw [List.foldl_cons]
    rw [hnext]
    refine le_trans ?_ (pushNames_length_ge r ns _)
    unfold pushName
    split_ifs <;> simp only [List.length_append, List.length_cons] <;> omega

theorem pushNames_cons (r : Bool) (out n : List Char) (ns : List (List Char)) :
    pushNames r out (n :: ns) = pushNames r (pushName r out n) ns := by
  unfold pushNames
  rw [List.foldl_cons]

/-- The text built on a rooted buffer. -/
theorem render_rooted (pre : List Char) (names : List (List Char))
    (hnames : ∀ n ∈ names, n ≠ []) :
    (pushNames true (pre ++ ['/']) names).reverse = under (pre ++ ['/']).reverse names := by
  cases names with
  | nil => simp [pushNames, under]
  | cons n ns =>
    have hn : n ≠ [] := hnames n (List.mem_cons_self _ _)
    have hnlen : 1 ≤ n.length := List.length_pos.2 hn
    rw [pushNames_cons]
    unfold under
    rw [if_neg (List.cons_ne_nil _ _), stringsJoin_eq_flatten]
    by_cases hpre : pre = []
    · subst hpre
      have hpush : pushName true ([] ++ ['/']) n = n.reverse ++ ['/'] := by
        unfold pushName
        rw [if_neg (by simp)]
        rfl
      rw [hpush, pushNames_sep true ns _
        (Or.inl ⟨rfl, by simp only [List.length_append, List.length_reverse, List.length_singleton]; omega⟩)]
      simp
    · have hlen : (pre ++ ['/']).length ≠ 1 := by
        have := List.length_pos.2 hpre
        simp only [List.length_append, List.length_singleton]
        omega
      have hpush : pushName true (pre ++ ['/']) n = n.reverse ++ '/' :: (pre ++ ['/']) := by
        unfold pushName
        rw [if_pos (Or.inl ⟨rfl, hlen⟩)]
      have hR1 : (pre ++ ['/']).reverse ≠ ['/'] := by
        intro h
        have := congrArg List.length h
        simp at this
        exact hpre this
      have hR2 : (pre ++ ['/']).reverse ≠ ['.'] := by
        simp
      rw [hpush, pushNames_sep true ns _
        (Or.inl ⟨rfl, by simp only [List.length_append, List.length_cons]; omega⟩),
        if_neg hR1, if_neg hR2]
      simp

/-- The text built on the buffer of a relative path. -/
theorem render_relative (out : List Char) (names : List (List Char))
    (hout : firstSegmentOK out.reverse) (hnames : ∀ n ∈ names, n ≠ []) :
    (if (pushNames false out names).length = 0 then ['.']
      else (pushNames false out names).reverse) =
      under (if out.length = 0 then ['.'] else out.reverse) names := by
  cases names with
  | nil => simp [pushNames, under]
  | cons n ns =>
    have hn : n ≠ [] := hnames n (List.mem_cons_self _ _)
    have hnlen : 1 ≤ n.length := List.length_pos.2 hn
    rw [pushNames_cons]
    unfold under
    rw [if_neg (List.cons_ne_nil _ _), stringsJoin_eq_flatten]
    by_cases ho : out = []
    · subst ho
      have hpush : pushName false [] n = n.reverse := by
        unfold pushName
        rw [if_neg (by simp)]
        simp
      have hrev := pushNames_sep false ns n.reverse (Or.inr ⟨rfl, by simpa using hnlen⟩)
      have hlen : (pushNames false n.reverse ns).length ≠ 0 := by
        have := congrArg List.length hrev
        simp only [List.length_reverse, List.length_append] at this
        omega
      rw [hpush, if_neg hlen, hrev]
      simp
    · have holen : out.length ≠ 0 := fun h => ho (List.length_eq_zero.1 h)
      have hpush : pushName false out n = n.reverse ++ '/' :: out := by
        unfold pushName
        rw [if_pos (Or.inr ⟨rfl, holen⟩)]
      have hrev := pushNames_sep false ns (n.reverse ++ '/' :: out)
        (Or.inr ⟨rfl, by simp only [List.length_append, List.length_cons]; omega⟩)
      have hlen : (pushNames false (n.reverse ++ '/' :: out) ns).length ≠ 0 := by
        have := congrArg List.length hrev
        simp only [List.length_reverse, List.length_append, List.length_cons] at this
        omega
      have hseg : out.reverse.takeWhile (fun x => x ≠ '/') ≠ [] ∧
          out.reverse.takeWhile (fun x => x ≠ '/') ≠ ['.'] := by
        rcases hout with h | h
        · exact absurd (List.reverse_eq_nil_iff.1 h) ho
        · exact h
      have hR1 : out.reverse ≠ ['/'] := by
        intro h
        rw [h] at hseg
        exact hseg.1 (by decide)
      have hR2 : out.reverse ≠ ['.'] := by
        intro h
        rw [h] at hseg
        exact hseg.2 (by decide)
      rw [hpush, if_neg hlen, hrev, if_neg holen, if_neg hR1, if_neg hR2]
      simp

theorem ordinary_ne_nil (L : List (List Char)) : ∀ n ∈ L.filter ordinary, n ≠ [] := by
  intro n hn
  have := (List.mem_filter.1 hn).2
  unfold ordinary at this
  rw [decide_eq_true_eq] at this
  exact this.1

theorem Clean_append_rooted (t p : List Char) (hp : ['.', '.'] ∉ Split p) :
    Clean ('/' :: t ++ '/' :: p) = under (Clean ('/' :: t)) ((Split p).filter ordinary) := by
  have hinv := cleanRun_rooted t.length t ['/'] (le_refl _) ⟨[], rfl⟩
  obtain ⟨hdd, pre, hpre⟩ := hinv
  have hroot : Clean ('/' :: t) = (pre ++ ['/']).reverse := by
    unfold Clean
    simp only [decide_True, if_true]
    rw [cleanLoop_eq_run true _ t _ _ (by simp), hpre]
    simp
  have hp' : ['.', '.'] ∉ Split ('/' :: p) := by
    rw [Split_sep_cons]
    intro h
    rcases List.mem_cons.1 h with h | h
    · simp at h
    · exact hp h
  have hrun : cleanRun true (t ++ '/' :: p) ['/'] 1 =
      (pushNames true (pre ++ ['/']) ((Split p).filter ordinary), 1) := by
    rw [cleanRun_append true t.length t p _ _ (le_refl _), hdd, hpre,
      cleanRun_no_dotdot true _ ('/' :: p) _ _ (le_refl _) hp', Split_sep_cons,
      List.filter_cons_of_neg (by simp [ordinary_nil])]
  have hne : (pushNames true (pre ++ ['/']) ((Split p).filter ordinary)).length ≠ 0 := by
    have := pushNames_length_ge true ((Split p).filter ordinary) (pre ++ ['/'])
    simp only [List.length_append, List.length_singleton] at this
    omega
  rw [hroot, ← render_rooted pre _ (ordinary_ne_nil _)]
  show Clean ('/' :: (t ++ '/' :: p)) = _
  unfold Clean
  simp only [decide_True, if_true]
  rw [cleanLoop_eq_run true _ (t ++ '/' :: p) _ _ (by simp), hrun]
  simp only [if_neg hne]

theorem Clean_append_relative (c : Char) (t p : List Char) (hc : c ≠ '/')
    (hp : ['.', '.'] ∉ Split p) :
    Clean (c :: t ++ '/' :: p) = under (Clean (c :: t)) ((Split p).filter ordinary) := by
  have hinv := cleanRun_relative (c :: t).length (c :: t) [] 0 (le_refl _) (Or.inl rfl)
    (Or.inl rfl)
  have hroot : Clean (c :: t) =
      (if (cleanRun false (c :: t) [] 0).1.length = 0 then ['.']
        else (cleanRun false (c :: t) [] 0).1.reverse) := by
    unfold Clean
    simp only [hc, decide_False, Bool.false_eq_true, if_false]
    rw [cleanLoop_eq_run false _ (c :: t) _ _ (le_refl _)]
  have hp' : ['.', '.'] ∉ Split ('/' :: p) := by
    rw [Split_sep_cons]
    intro h
    rcases List.mem_cons.1 h with h | h
    · simp at h
    · exact hp h
  have hrun : cleanRun false (c :: t ++ '/' :: p) [] 0 =
      (pushNames false (cleanRun false (c :: t) [] 0).1 ((Split p).filter ordinary),
        (cleanRun false (c :: t) [] 0).2) := by
    rw [cleanRun_append false (c :: t).length (c :: t) p _ _ (le_refl _),
      cleanRun_no_dotdot false _ ('/' :: p) _ _ (le_refl _) hp', Split_sep_cons,
      List.filter_cons_of_neg (by simp [ordinary_nil])]
  rw [hroot, ← render_relative _ _ hinv (ordinary_ne_nil _)]
  show Clean (c :: (t ++ '/' :: p)) = _
  unfold Clean
  simp only [hc, decide_False, Bool.false_eq_true, if_false]
  have e1 : c :: (t ++ '/' :: p) = c :: t ++ '/' :: p := rfl
  rw [cleanLoop_eq_run false _ (c :: (t ++ '/' :: p)) _ _ (le_refl _), e1, hrun]

/-- C2 (amended): for a non-empty `RootPath` and a logical path with no
`..` segment, `realPath(p)` is the cleaned root followed by the ordinary
segments of `p` (those that are not empty and not `.`), joined by `/`: the
root itself when there is none, a location below the root otherwise. -/
theorem realPath_within_root (d : fd.Driver) (p : List Char)
    (hroot : d.RootPath ≠ []) (hp : ['.', '.'] ∉ Split p) :
    d.realPath p = under (Clean d.RootPath) ((Split p).filter ordinary) := by
  have hjoin : stringsJoin (d.RootPath :: Split p) = d.RootPath ++ '/' :: p := by
    cases hs : Split p with
    | nil => exact absurd hs (List.splitOnP_ne_nil _ _)
    | cons s ss => rw [stringsJoin_cons_cons, ← hs, stringsJoin_Split]
  have hdrop : (d.RootPath :: Split p).dropWhile (fun e => e = []) = d.RootPath :: Split p := by
    rw [List.dropWhile_cons_of_neg (by simpa using hroot)]
  unfold fd.Driver.realPath Join
  simp only [hdrop, hjoin]
  cases hr : d.RootPath with
  | nil => exact absurd hr hroot
  | cons c t =>
    by_cases hc : c = '/'
    · subst hc
      exact Clean_append_rooted t p hp
    · exact Clean_append_relative c t p hc hp

theorem realPath_within_root_witness :
    srvDriver.realPath "/a/./b//c".toList =
      under (Clean srvDriver.RootPath) ((Split "/a/./b//c".toList).filter ordinary) :=
  realPath_within_root srvDriver "/a/./b//c".toList (by decide) (by decide)

/-- C2 as stated fails: with `RootPath = "/srv"` the logical path
`/../etc/passwd` resolves to the host path `/etc/passwd`, which does not
even begin with the root. -/
theorem realPath_dotdot_escapes :
    srvDriver.realPath "/../etc/passwd".toList = "/etc/passwd".toList ∧
    ¬ (Clean srvDriver.RootPath <+: srvDriver.realPath "/../etc/passwd".toList) := by
  decide

/-! ## Theorems: vd.Driver.Stat -/

/-- The cell of the driver keeps its value through any sequence of `PutFile`
calls. -/
theorem vd_callPutFiles_cell {σ ρ : Type} (cell : vd.Driver σ ρ) :
    ∀ (calls : List (vd.PutFileArgs ρ)) (w : vd.World σ ρ),
      (vd.callPutFiles cell calls w).1 = cell
  | [], _ => rfl
  | a :: rest, w => by
    unfold vd.callPutFiles
    exact vd_callPutFiles_cell cell rest (vd.callPutFile cell a w).2.2

/-- C11: for the driver that `vd.Factory.NewDriver` returns (with a nil
error), after any sequence of `PutFile` calls, `Stat(name)` for every name
returns a nil error and the `fileInfo` with name `output` and size 0, which
is not a directory. The update `d.size += n` inside `PutFile` does happen on
the method's copy of the receiver (its size becomes the old size plus the
count returned), but the driver the caller holds keeps its size. -/
theorem vd_Stat_after_PutFile_calls {σ ρ : Type} (f : vd.Factory σ ρ)
    (calls : List (vd.PutFileArgs ρ)) (w : vd.World σ ρ) (name : List Char)
    (offset : Int) (r : ρ) (appendFlag : Bool) :
    f.NewDriver.2 = none ∧
    ((vd.callPutFiles f.NewDriver.1 calls w).1.Stat name).2 = none ∧
    ((vd.callPutFiles f.NewDriver.1 calls w).1.Stat name).1.Name = "output".toList ∧
    ((vd.callPutFiles f.NewDriver.1 calls w).1.Stat name).1.Size = 0 ∧
    ((vd.callPutFiles f.NewDriver.1 calls w).1.Stat name).1.IsDir = false ∧
    ((vd.callPutFiles f.NewDriver.1 calls w).1.PutFileBody "/output".toList offset r appendFlag
        (vd.callPutFiles f.NewDriver.1 calls w).2).2.1.size =
      0 + ((vd.callPutFiles f.NewDriver.1 calls w).1.PutFile "/output".toList offset r appendFlag
        (vd.callPutFiles f.NewDriver.1 calls w).2).1.1 ∧
    ((vd.callPutFile (vd.callPutFiles f.NewDriver.1 calls w).1
        ⟨"/output".toList, offset, r, appendFlag⟩
        (vd.callPutFiles f.NewDriver.1 calls w).2).2.1.Stat name).1.Size = 0 := by
  rw [vd_callPutFiles_cell]
  have h : ¬ ("/output".toList ≠ '/' :: vd.fileName) := by decide
  refine ⟨rfl, rfl, rfl, rfl, rfl, ?_, rfl⟩
  unfold vd.Driver.PutFile vd.Driver.PutFileBody
  rw [if_neg h]
  rfl

end Ftp
